import Mathlib

/-!
# Verification of the Nautobot IPAM engine (prefix tree, allocation, validation)

Shallow embedding of the IPAM domain engine described by the repository's
spec and exercised by `nautobot/ipam/tests/test_models.py`.  Addresses are
unsigned integers (`ℕ` below `2^bits`, with `bits = 32` for IPv4 and
`bits = 128` for IPv6); a CIDR prefix is a network value plus prefix length.
-/

set_option maxRecDepth 40000

namespace Ipam

/-- A CIDR prefix: address family width (32 or 128), network address as an
unsigned integer, and prefix length.  Mirrors the `(network, prefix_length)`
pair stored on a `Prefix` record. -/
structure Pfx where
  bits : ℕ
  network : ℕ
  plen : ℕ
deriving DecidableEq

/-- Number of addresses covered by the prefix: `2^(bits - plen)`. -/
def Pfx.size (p : Pfx) : ℕ := 2 ^ (p.bits - p.plen)

/-- Canonical-form invariant of a stored prefix: prefix length within the
family width, network below `2^bits`, host bits zero (network is a multiple
of the block size). -/
def Pfx.Valid (p : Pfx) : Prop :=
  p.plen ≤ p.bits ∧ p.network < 2 ^ p.bits ∧ p.network % p.size = 0

instance (p : Pfx) : Decidable p.Valid := by
  unfold Pfx.Valid; infer_instance

/-- Address membership in a prefix's range. -/
def Pfx.Mem (p : Pfx) (a : ℕ) : Prop := p.network ≤ a ∧ a < p.network + p.size

instance (p : Pfx) (a : ℕ) : Decidable (p.Mem a) := by
  unfold Pfx.Mem; infer_instance

/-- The broadcast (last) address of a prefix. -/
def Pfx.broadcast (p : Pfx) : ℕ := p.network + p.size - 1

/-- IPv4 address from dotted-quad components. -/
def v4 (a b c d : ℕ) : ℕ := ((a * 256 + b) * 256 + c) * 256 + d

/-- IPv4 prefix from dotted-quad components and prefix length. -/
def v4p (a b c d plen : ℕ) : Pfx := ⟨32, v4 a b c d, plen⟩

/-! ## Two-adic valuation and floor log2 (fuel-based, kernel-computable) -/

/-- Fuel-driven 2-adic valuation: number of trailing zero bits of `a`.
Correct whenever `a < 2^fuel`. -/
def twoAdicF : ℕ → ℕ → ℕ
  | 0, _ => 0
  | fuel + 1, a => if a % 2 = 1 ∨ a = 0 then 0 else twoAdicF fuel (a / 2) + 1

/-- 2-adic valuation of `a` (largest `k` with `2^k ∣ a`, for `a ≠ 0`). -/
def twoAdic (a : ℕ) : ℕ := twoAdicF a a

/-- Fuel-driven floor of log base 2.  Correct whenever `n < 2^fuel`. -/
def log2F : ℕ → ℕ → ℕ
  | 0, _ => 0
  | fuel + 1, n => if n < 2 then 0 else log2F fuel (n / 2) + 1

/-- Floor of log base 2 of `n`. -/
def flog2 (n : ℕ) : ℕ := log2F n n

theorem twoAdicF_spec : ∀ (fuel a : ℕ), a ≠ 0 → a < 2 ^ fuel →
    2 ^ twoAdicF fuel a ∣ a ∧ ¬ 2 ^ (twoAdicF fuel a + 1) ∣ a := by
  intro fuel
  induction fuel with
  | zero => intro a ha hlt; omega
  | succ f ih =>
    intro a ha hlt
    rw [twoAdicF]
    by_cases hodd : a % 2 = 1 ∨ a = 0
    · rcases hodd with hodd | rfl
      · simp only [if_pos (Or.inl hodd)]
        constructor
        · simp
        · intro hdvd
          have h2 : 2 ∣ a := dvd_trans (by norm_num) hdvd
          omega
      · exact absurd rfl ha
    · simp only [if_neg hodd]
      push_neg at hodd
      obtain ⟨hmod, _⟩ := hodd
      have heven : a % 2 = 0 := by omega
      have ha2 : a / 2 ≠ 0 := by omega
      have hlt2 : a / 2 < 2 ^ f := by
        have : 2 ^ (f + 1) = 2 ^ f * 2 := by ring
        omega
      obtain ⟨hdvd, hnot⟩ := ih (a / 2) ha2 hlt2
      have hae : 2 * (a / 2) = a := by omega
      constructor
      · nth_rewrite 2 [← hae]
        rw [pow_succ']
        exact mul_dvd_mul_left 2 hdvd
      · intro hdvd2
        apply hnot
        nth_rewrite 2 [← hae] at hdvd2
        rw [pow_succ'] at hdvd2
        exact (Nat.mul_dvd_mul_iff_left (by norm_num : 0 < 2)).mp hdvd2

theorem twoAdic_dvd {a : ℕ} (ha : a ≠ 0) : 2 ^ twoAdic a ∣ a :=
  (twoAdicF_spec a a ha (Nat.lt_two_pow a)).1

theorem twoAdic_max {a k : ℕ} (ha : a ≠ 0) (h : 2 ^ k ∣ a) : k ≤ twoAdic a := by
  by_contra hlt
  push_neg at hlt
  exact (twoAdicF_spec a a ha (Nat.lt_two_pow a)).2
    (dvd_trans (pow_dvd_pow 2 hlt) h)

theorem log2F_spec : ∀ (fuel n : ℕ), n ≠ 0 → n < 2 ^ fuel →
    2 ^ log2F fuel n ≤ n ∧ n < 2 ^ (log2F fuel n + 1) := by
  intro fuel
  induction fuel with
  | zero => intro n hn hlt; omega
  | succ f ih =>
    intro n hn hlt
    rw [log2F]
    by_cases hsmall : n < 2
    · simp only [if_pos hsmall]
      constructor
      · simpa using Nat.one_le_iff_ne_zero.mpr hn
      · simpa using hsmall
    · simp only [if_neg hsmall]
      have hn2 : n / 2 ≠ 0 := by omega
      have hlt2 : n / 2 < 2 ^ f := by
        have : 2 ^ (f + 1) = 2 ^ f * 2 := by ring
        omega
      obtain ⟨hle, hgt⟩ := ih (n / 2) hn2 hlt2
      constructor
      · calc 2 ^ (log2F f (n / 2) + 1) = 2 ^ log2F f (n / 2) * 2 := by ring
          _ ≤ (n / 2) * 2 := by omega
          _ ≤ n := by omega
      · calc n < (n / 2 + 1) * 2 := by omega
          _ ≤ 2 ^ (log2F f (n / 2) + 1) * 2 := by
              have : n / 2 + 1 ≤ 2 ^ (log2F f (n / 2) + 1) := hgt
              omega
          _ = 2 ^ (log2F f (n / 2) + 1 + 1) := by ring

theorem flog2_le {n : ℕ} (hn : n ≠ 0) : 2 ^ flog2 n ≤ n :=
  (log2F_spec n n hn (Nat.lt_two_pow n)).1

theorem flog2_max {n k : ℕ} (hn : n ≠ 0) (h : 2 ^ k ≤ n) : k ≤ flog2 n := by
  have hspec := (log2F_spec n n hn (Nat.lt_two_pow n)).2
  by_contra hlt
  push_neg at hlt
  have h2 : 2 ^ (flog2 n + 1) ≤ 2 ^ k := pow_le_pow_right₀ (by norm_num) hlt
  exact absurd hspec (not_lt.mpr (le_trans h2 h))

/-! ## Greedy CIDR splitting of an integer interval

`netaddr.IPSet` represents available space as the minimal list of CIDRs;
the greedy split below (largest aligned power-of-two block first) is that
canonical partition. -/

/-- Exponent of the greedy block at `a` in an interval of `n` remaining
addresses: the alignment of `a` (unbounded at `a = 0`) capped by the largest
power of two not exceeding `n`. -/
def blockExp (a n : ℕ) : ℕ :=
  if a = 0 then flog2 n else min (twoAdic a) (flog2 n)

theorem blockExp_dvd (a n : ℕ) : 2 ^ blockExp a n ∣ a := by
  unfold blockExp
  split
  · simp [*]
  · exact dvd_trans (pow_dvd_pow 2 (min_le_left _ _)) (twoAdic_dvd (by assumption))

theorem blockExp_le {a n : ℕ} (hn : n ≠ 0) : 2 ^ blockExp a n ≤ n := by
  unfold blockExp
  split
  · exact flog2_le hn
  · exact le_trans (pow_le_pow_right₀ (by norm_num) (min_le_right _ _)) (flog2_le hn)

theorem blockExp_pos (a n : ℕ) : 0 < 2 ^ blockExp a n := Nat.pos_pow_of_pos _ (by norm_num)

theorem blockExp_max {a n m : ℕ} (hn : n ≠ 0) (hdvd : 2 ^ m ∣ a) (hle : 2 ^ m ≤ n) :
    m ≤ blockExp a n := by
  unfold blockExp
  split
  · exact flog2_max hn hle
  · exact le_min (twoAdic_max (by assumption) hdvd) (flog2_max hn hle)

/-- Fuel-driven greedy split of the interval `[a, a+n)` into maximal aligned
power-of-two blocks, reported as `(start, exponent)` pairs.  Fuel `n` always
suffices because every emitted block is nonempty. -/
def cidrSplitF : ℕ → ℕ → ℕ → List (ℕ × ℕ)
  | 0, _, _ => []
  | fuel + 1, a, n =>
    if n = 0 then []
    else
      let k := blockExp a n
      (a, k) :: cidrSplitF fuel (a + 2 ^ k) (n - 2 ^ k)

/-- Greedy split of `[a, a+n)`: the minimal CIDR partition of the interval
(as computed by `netaddr` when listing an `IPSet`'s CIDRs). -/
def cidrSplit (a n : ℕ) : List (ℕ × ℕ) := cidrSplitF n a n

example : cidrSplit (v4 10 0 3 0) 64768 =
    [(v4 10 0 3 0, 8), (v4 10 0 4 0, 10), (v4 10 0 8 0, 11), (v4 10 0 16 0, 12),
     (v4 10 0 32 0, 13), (v4 10 0 64 0, 14), (v4 10 0 128 0, 15)] := by decide

theorem cidrSplitF_eq_cons {fuel a n : ℕ} (hn : n ≠ 0) (hf : 1 ≤ fuel) :
    cidrSplitF fuel a n =
      (a, blockExp a n) ::
        cidrSplitF (fuel - 1) (a + 2 ^ blockExp a n) (n - 2 ^ blockExp a n) := by
  cases fuel with
  | zero => omega
  | succ f => simp [cidrSplitF, hn]

theorem cidrSplitF_zero (fuel a : ℕ) : cidrSplitF fuel a 0 = [] := by
  cases fuel <;> simp [cidrSplitF]

theorem cidrSplitF_bounds : ∀ (fuel : ℕ) {a n : ℕ}, n ≤ fuel →
    ∀ p ∈ cidrSplitF fuel a n, a ≤ p.1 ∧ p.1 + 2 ^ p.2 ≤ a + n := by
  intro fuel
  induction fuel with
  | zero => intro a n _ p hp; simp [cidrSplitF] at hp
  | succ f ih =>
    intro a n hle p hp
    by_cases hn : n = 0
    · simp [cidrSplitF, hn] at hp
    · rw [cidrSplitF_eq_cons hn (by omega)] at hp
      simp only [Nat.succ_sub_one] at hp
      have hkle : 2 ^ blockExp a n ≤ n := blockExp_le hn
      have hkpos : 0 < 2 ^ blockExp a n := blockExp_pos a n
      rcases List.mem_cons.mp hp with rfl | htl
      · exact ⟨le_refl _, show a + 2 ^ blockExp a n ≤ a + n by omega⟩
      · have := ih (by omega) p htl
        omega

theorem cidrSplitF_cover : ∀ (fuel : ℕ) {a n : ℕ}, n ≤ fuel → ∀ x,
    (∃ p ∈ cidrSplitF fuel a n, p.1 ≤ x ∧ x < p.1 + 2 ^ p.2) ↔ (a ≤ x ∧ x < a + n) := by
  intro fuel
  induction fuel with
  | zero =>
    intro a n hle x
    simp [cidrSplitF]
    omega
  | succ f ih =>
    intro a n hle x
    by_cases hn : n = 0
    · simp [cidrSplitF, hn]
    · rw [cidrSplitF_eq_cons hn (by omega)]
      simp only [Nat.succ_sub_one]
      have hkle : 2 ^ blockExp a n ≤ n := blockExp_le hn
      have hkpos : 0 < 2 ^ blockExp a n := blockExp_pos a n
      constructor
      · rintro ⟨p, hp, hx1, hx2⟩
        rcases List.mem_cons.mp hp with rfl | htl
        · have hx1' : a ≤ x := hx1
          have hx2' : x < a + 2 ^ blockExp a n := hx2
          omega
        · have hb := cidrSplitF_bounds f (by omega) p htl
          omega
      · intro hx
        by_cases hhead : x < a + 2 ^ blockExp a n
        · exact ⟨(a, blockExp a n), List.mem_cons_self _ _, hx.1, hhead⟩
        · push_neg at hhead
          obtain ⟨p, hp, h1, h2⟩ :=
            (@ih (a + 2 ^ blockExp a n) (n - 2 ^ blockExp a n) (by omega) x).mpr
              ⟨hhead, by omega⟩
          exact ⟨p, List.mem_cons_of_mem _ hp, h1, h2⟩

theorem cidrSplitF_chain : ∀ (fuel : ℕ) {a n : ℕ}, n ≤ fuel →
    (cidrSplitF fuel a n).Pairwise (fun p q => p.1 + 2 ^ p.2 ≤ q.1) := by
  intro fuel
  induction fuel with
  | zero => intro a n _; simp [cidrSplitF]
  | succ f ih =>
    intro a n hle
    by_cases hn : n = 0
    · simp [cidrSplitF, hn]
    · rw [cidrSplitF_eq_cons hn (by omega)]
      simp only [Nat.succ_sub_one]
      have hkle : 2 ^ blockExp a n ≤ n := blockExp_le hn
      have hkpos : 0 < 2 ^ blockExp a n := blockExp_pos a n
      refine List.Pairwise.cons ?_ (ih (by omega))
      intro q hq
      exact (cidrSplitF_bounds f (by omega) q hq).1

theorem cidrSplitF_aligned : ∀ (fuel : ℕ) {a n : ℕ}, n ≤ fuel →
    ∀ p ∈ cidrSplitF fuel a n, 2 ^ p.2 ∣ p.1 ∧ 2 ^ p.2 ≤ n := by
  intro fuel
  induction fuel with
  | zero => intro a n _ p hp; simp [cidrSplitF] at hp
  | succ f ih =>
    intro a n hle p hp
    by_cases hn : n = 0
    · simp [cidrSplitF, hn] at hp
    · rw [cidrSplitF_eq_cons hn (by omega)] at hp
      simp only [Nat.succ_sub_one] at hp
      have hkle : 2 ^ blockExp a n ≤ n := blockExp_le hn
      have hkpos : 0 < 2 ^ blockExp a n := blockExp_pos a n
      rcases List.mem_cons.mp hp with rfl | htl
      · exact ⟨blockExp_dvd a n, hkle⟩
      · have := ih (by omega) p htl
        exact ⟨this.1, by omega⟩

/-- Minimality of the greedy split: no two returned blocks that are adjacent
in address space form the two halves of a larger aligned block. -/
theorem cidrSplitF_minimal : ∀ (fuel : ℕ) {a n : ℕ}, n ≤ fuel →
    ∀ p ∈ cidrSplitF fuel a n, ∀ q ∈ cidrSplitF fuel a n,
      p.1 + 2 ^ p.2 = q.1 → ¬(p.2 = q.2 ∧ 2 ^ (p.2 + 1) ∣ p.1) := by
  intro fuel
  induction fuel with
  | zero => intro a n _ p hp; simp [cidrSplitF] at hp
  | succ f ih =>
    intro a n hle p hp q hq hadj hmerge
    by_cases hn : n = 0
    · simp [cidrSplitF, hn] at hp
    · rw [cidrSplitF_eq_cons hn (by omega)] at hp hq
      simp only [Nat.succ_sub_one] at hp hq
      have hkle : 2 ^ blockExp a n ≤ n := blockExp_le hn
      have hkpos : 0 < 2 ^ blockExp a n := blockExp_pos a n
      set k := blockExp a n with hk
      rcases List.mem_cons.mp hp with rfl | hptl
      · -- p is the head block (a, k)
        have hadj' : a + 2 ^ k = q.1 := hadj
        have hkeq : (k : ℕ) = q.2 := hmerge.1
        have hdvd : 2 ^ (k + 1) ∣ a := hmerge.2
        clear hadj hmerge hp
        rcases List.mem_cons.mp hq with rfl | hqtl
        · have hcontra : a + 2 ^ k = a := hadj'
          omega
        · -- q is in the tail; adjacency forces q to be the tail's first block
          have hn' : n - 2 ^ k ≠ 0 := by
            intro h0
            rw [h0, cidrSplitF_zero] at hqtl
            exact absurd hqtl (List.not_mem_nil q)
          rw [cidrSplitF_eq_cons hn' (by omega)] at hqtl
          rcases List.mem_cons.mp hqtl with rfl | hqtl'
          · -- q = (a + 2^k, blockExp (a+2^k) (n - 2^k))
            have hkeq' : k = blockExp (a + 2 ^ k) (n - 2 ^ k) := hkeq
            have hfit : 2 ^ (k + 1) ≤ n := by
              have h1 : 2 ^ blockExp (a + 2 ^ k) (n - 2 ^ k) ≤ n - 2 ^ k :=
                @blockExp_le (a + 2 ^ k) (n - 2 ^ k) hn'
              rw [← hkeq'] at h1
              have h2 : (2 : ℕ) ^ (k + 1) = 2 ^ k + 2 ^ k := by ring
              omega
            have := blockExp_max hn hdvd hfit
            omega
          · -- q strictly past the tail's first block: not adjacent to the head
            have hpos2 : 0 < 2 ^ blockExp (a + 2 ^ k) (n - 2 ^ k) :=
              blockExp_pos _ _
            have hf1 : n - 2 ^ k ≤ f := by omega
            have hfuel2 : n - 2 ^ k - 2 ^ blockExp (a + 2 ^ k) (n - 2 ^ k) ≤ f - 1 := by
              omega
            have hb := cidrSplitF_bounds (f - 1) (a := a + 2 ^ k +
                2 ^ blockExp (a + 2 ^ k) (n - 2 ^ k))
              (n := n - 2 ^ k - 2 ^ blockExp (a + 2 ^ k) (n - 2 ^ k)) hfuel2 q hqtl'
            omega
      · rcases List.mem_cons.mp hq with rfl | hqtl
        · -- q is the head block but p lies after it: impossible adjacency
          have hadj' : p.1 + 2 ^ p.2 = a := hadj
          have hb := cidrSplitF_bounds f (by omega) p hptl
          have hppos : 0 < 2 ^ p.2 := Nat.pos_pow_of_pos _ (by norm_num)
          omega
        · exact ih (by omega) p hptl q hqtl hadj hmerge

/-! ## Subtracting child ranges: gap computation -/

/-- Sequential layout of half-open child intervals inside `[L, H)`: each
child is nonempty, children are sorted, pairwise non-overlapping and
contained in `[L, H)`.  This is the canonical sorted listing of a set of
pairwise non-overlapping child ranges inside a parent range. -/
def Seq : ℕ → ℕ → List (ℕ × ℕ) → Prop
  | L, H, [] => L ≤ H
  | L, H, c :: rest => L ≤ c.1 ∧ c.1 < c.2 ∧ Seq c.2 H rest

def decSeq : (cs : List (ℕ × ℕ)) → (L H : ℕ) → Decidable (Seq L H cs)
  | [], L, H => inferInstanceAs (Decidable (L ≤ H))
  | c :: rest, L, H =>
    haveI := decSeq rest c.2 H
    inferInstanceAs (Decidable (L ≤ c.1 ∧ c.1 < c.2 ∧ Seq c.2 H rest))

instance (L H : ℕ) (cs : List (ℕ × ℕ)) : Decidable (Seq L H cs) := decSeq cs L H

theorem Seq_le : ∀ {cs : List (ℕ × ℕ)} {L H : ℕ}, Seq L H cs → L ≤ H := by
  intro cs
  induction cs with
  | nil => intro L H h; exact h
  | cons c rest ih =>
    intro L H h
    obtain ⟨h1, h2, h3⟩ := h
    exact le_trans h1 (le_trans (le_of_lt h2) (ih h3))

theorem Seq_mem_bounds : ∀ {cs : List (ℕ × ℕ)} {L H : ℕ}, Seq L H cs →
    ∀ c ∈ cs, L ≤ c.1 ∧ c.1 < c.2 ∧ c.2 ≤ H := by
  intro cs
  induction cs with
  | nil => intro L H _ c hc; simp at hc
  | cons d rest ih =>
    intro L H h c hc
    obtain ⟨h1, h2, h3⟩ := h
    rcases List.mem_cons.mp hc with rfl | hc'
    · exact ⟨h1, h2, Seq_le h3⟩
    · have := ih h3 c hc'
      omega

/-- The maximal free gaps of `[L, H)` left by the sequential child list:
walking the sorted children, the space before each child and after the last
child.  This is the interval-level content of the `IPSet` subtraction
`parent - children`. -/
def gapsF : ℕ → ℕ → List (ℕ × ℕ) → List (ℕ × ℕ)
  | L, H, [] => if L < H then [(L, H)] else []
  | L, H, c :: rest => (if L < c.1 then [(L, c.1)] else []) ++ gapsF c.2 H rest

theorem gapsF_bounds : ∀ {cs : List (ℕ × ℕ)} {L H : ℕ}, Seq L H cs →
    ∀ g ∈ gapsF L H cs, L ≤ g.1 ∧ g.1 < g.2 ∧ g.2 ≤ H := by
  intro cs
  induction cs with
  | nil =>
    intro L H _ g hg
    rw [gapsF] at hg
    split at hg
    · rcases List.mem_singleton.mp hg with rfl
      simp only
      omega
    · simp at hg
  | cons c rest ih =>
    intro L H h g hg
    obtain ⟨h1, h2, h3⟩ := h
    rw [gapsF] at hg
    rcases List.mem_append.mp hg with hhd | htl
    · split at hhd
      · rcases List.mem_singleton.mp hhd with rfl
        have : c.2 ≤ H := Seq_le h3
        simp only
        omega
      · simp at hhd
    · have := ih h3 g htl
      omega

theorem gapsF_cover : ∀ {cs : List (ℕ × ℕ)} {L H : ℕ}, Seq L H cs → ∀ x,
    (∃ g ∈ gapsF L H cs, g.1 ≤ x ∧ x < g.2) ↔
      ((L ≤ x ∧ x < H) ∧ ∀ c ∈ cs, ¬(c.1 ≤ x ∧ x < c.2)) := by
  intro cs
  induction cs with
  | nil =>
    intro L H _ x
    rw [gapsF]
    split
    · simp only [List.mem_singleton]
      constructor
      · rintro ⟨g, rfl, hx⟩
        exact ⟨hx, by simp⟩
      · rintro ⟨hx, -⟩
        exact ⟨(L, H), rfl, hx⟩
    · simp only [List.not_mem_nil]
      constructor
      · rintro ⟨g, hg, -⟩
        exact absurd hg (by simp)
      · rintro ⟨hx, -⟩
        omega
  | cons c rest ih =>
    intro L H h x
    obtain ⟨h1, h2, h3⟩ := h
    have hrb := Seq_mem_bounds h3
    have hH : c.2 ≤ H := Seq_le h3
    rw [gapsF]
    constructor
    · rintro ⟨g, hg, hx1, hx2⟩
      rcases List.mem_append.mp hg with hhd | htl
      · split at hhd
        · rcases List.mem_singleton.mp hhd with rfl
          simp only at hx1 hx2
          refine ⟨⟨hx1, by omega⟩, ?_⟩
          intro d hd
          rcases List.mem_cons.mp hd with rfl | hd'
          · omega
          · have := hrb d hd'
            omega
        · simp at hhd
      · obtain ⟨⟨hx1', hx2'⟩, hfree⟩ := (ih h3 x).mp ⟨g, htl, hx1, hx2⟩
        refine ⟨⟨by omega, hx2'⟩, ?_⟩
        intro d hd
        rcases List.mem_cons.mp hd with rfl | hd'
        · omega
        · exact hfree d hd'
    · rintro ⟨⟨hx1, hx2⟩, hfree⟩
      have hnc : ¬(c.1 ≤ x ∧ x < c.2) := hfree c (List.mem_cons_self c rest)
      by_cases hbefore : x < c.1
      · refine ⟨(L, c.1), ?_, hx1, hbefore⟩
        apply List.mem_append.mpr
        left
        rw [if_pos (by omega)]
        exact List.mem_singleton.mpr rfl
      · have hxc2 : c.2 ≤ x := by omega
        obtain ⟨g, hg, hgx⟩ := (ih h3 x).mpr
          ⟨⟨hxc2, hx2⟩, fun d hd => hfree d (List.mem_cons_of_mem c hd)⟩
        exact ⟨g, List.mem_append.mpr (Or.inr hg), hgx⟩

theorem gapsF_sep : ∀ {cs : List (ℕ × ℕ)} {L H : ℕ}, Seq L H cs →
    (gapsF L H cs).Pairwise (fun g h => g.2 < h.1) := by
  intro cs
  induction cs with
  | nil =>
    intro L H _
    rw [gapsF]
    split <;> simp
  | cons c rest ih =>
    intro L H h
    obtain ⟨h1, h2, h3⟩ := h
    rw [gapsF]
    apply List.pairwise_append.mpr
    refine ⟨?_, ih h3, ?_⟩
    · split <;> simp
    · intro g hg g' hg'
      split at hg
      · rcases List.mem_singleton.mp hg with rfl
        have := gapsF_bounds h3 g' hg'
        simp only
        omega
      · simp at hg

/-! ## Assembly: available blocks of a parent minus its children -/

/-- All free CIDR blocks (as `(start, exponent)` pairs) of `[L, H)` after
removing the child intervals `cs`: each maximal gap, split into its minimal
CIDR partition. -/
def availBlocks (L H : ℕ) (cs : List (ℕ × ℕ)) : List (ℕ × ℕ) :=
  (gapsF L H cs).flatMap fun g => cidrSplit g.1 (g.2 - g.1)

theorem availBlocks_cover {L H : ℕ} {cs : List (ℕ × ℕ)} (h : Seq L H cs) (x : ℕ) :
    (∃ b ∈ availBlocks L H cs, b.1 ≤ x ∧ x < b.1 + 2 ^ b.2) ↔
      ((L ≤ x ∧ x < H) ∧ ∀ c ∈ cs, ¬(c.1 ≤ x ∧ x < c.2)) := by
  rw [← gapsF_cover h x]
  unfold availBlocks
  constructor
  · rintro ⟨b, hb, hx⟩
    obtain ⟨g, hg, hbg⟩ := List.mem_flatMap.mp hb
    have hgb := gapsF_bounds h g hg
    have := (cidrSplitF_cover (g.2 - g.1) (le_refl _) x).mp ⟨b, hbg, hx⟩
    exact ⟨g, hg, by omega⟩
  · rintro ⟨g, hg, hx⟩
    have hgb := gapsF_bounds h g hg
    obtain ⟨b, hbg, hbx⟩ :=
      (@cidrSplitF_cover (g.2 - g.1) g.1 (g.2 - g.1) (le_refl _) x).mpr (by omega)
    exact ⟨b, List.mem_flatMap.mpr ⟨g, hg, hbg⟩, hbx⟩

theorem availBlocks_bounds {L H : ℕ} {cs : List (ℕ × ℕ)} (h : Seq L H cs) :
    ∀ b ∈ availBlocks L H cs, L ≤ b.1 ∧ b.1 + 2 ^ b.2 ≤ H ∧ 2 ^ b.2 ∣ b.1 := by
  intro b hb
  obtain ⟨g, hg, hbg⟩ := List.mem_flatMap.mp hb
  have hgb := gapsF_bounds h g hg
  have h1 := cidrSplitF_bounds (g.2 - g.1) (le_refl _) b hbg
  have h2 := cidrSplitF_aligned (g.2 - g.1) (le_refl _) b hbg
  exact ⟨by omega, by omega, h2.1⟩

/-- Structural relation between a block and any later block of the result:
strictly ordered with no overlap, and if exactly adjacent then not mergeable
into one aligned block. -/
def MergeRel (b c : ℕ × ℕ) : Prop :=
  b.1 + 2 ^ b.2 ≤ c.1 ∧
    (b.1 + 2 ^ b.2 = c.1 → ¬(b.2 = c.2 ∧ 2 ^ (b.2 + 1) ∣ b.1))

theorem availBlocks_pairwise {L H : ℕ} {cs : List (ℕ × ℕ)} (h : Seq L H cs) :
    (availBlocks L H cs).Pairwise MergeRel := by
  unfold MergeRel
  unfold availBlocks
  apply List.pairwise_flatMap.mpr
  constructor
  · intro g hg
    exact (cidrSplitF_chain (g.2 - g.1) (le_refl _)).and
      (List.pairwise_of_forall_mem_list fun b hb c hc =>
        cidrSplitF_minimal (g.2 - g.1) (le_refl _) b hb c hc)
  · have hsep := gapsF_sep h
    refine hsep.imp_of_mem ?_
    intro g g' hg hg' hlt b hb c hc
    have h1 := cidrSplitF_bounds (g.2 - g.1) (le_refl _) b hb
    have h2 := cidrSplitF_bounds (g'.2 - g'.1) (le_refl _) c hc
    have hgb := gapsF_bounds h g hg
    have hgb' := gapsF_bounds h g' hg'
    constructor
    · omega
    · intro hadj
      omega

/-- Two powers of two sum to a power of two only when they are equal halves. -/
theorem two_pow_add_two_pow_le {a b c : ℕ} (hab : a ≤ b) (h : 2 ^ a + 2 ^ b = 2 ^ c) :
    b = a ∧ c = a + 1 := by
  have hbpos : 0 < 2 ^ b := Nat.pos_pow_of_pos _ (by norm_num)
  have hac : a < c := by
    have : (2 : ℕ) ^ a < 2 ^ c := by omega
    exact (Nat.pow_lt_pow_iff_right (by norm_num)).mp this
  have h1 : 2 ^ a * (1 + 2 ^ (b - a)) = 2 ^ a * 2 ^ (c - a) := by
    rw [Nat.mul_add, mul_one, ← pow_add, ← pow_add]
    have e1 : a + (b - a) = b := by omega
    have e2 : a + (c - a) = c := by omega
    rw [e1, e2]
    exact h
  have h2 : 1 + 2 ^ (b - a) = 2 ^ (c - a) :=
    Nat.eq_of_mul_eq_mul_left (Nat.pos_pow_of_pos _ (by norm_num)) h1
  rcases Nat.eq_zero_or_pos (b - a) with hba | hba
  · rw [hba] at h2
    norm_num at h2
    have : c - a = 1 := Nat.pow_right_injective (le_refl 2) h2.symm
    omega
  · exfalso
    have hca1 : 1 ≤ c - a := by omega
    have e1 : (2 : ℕ) ^ (c - a) = 2 * 2 ^ (c - a - 1) := by
      rw [← pow_succ']
      congr 1
      omega
    have e2 : (2 : ℕ) ^ (b - a) = 2 * 2 ^ (b - a - 1) := by
      rw [← pow_succ']
      congr 1
      omega
    omega

theorem two_pow_add_two_pow {a b c : ℕ} (h : 2 ^ a + 2 ^ b = 2 ^ c) :
    b = a ∧ c = a + 1 := by
  rcases le_total a b with hab | hba
  · exact two_pow_add_two_pow_le hab h
  · obtain ⟨h1, h2⟩ := @two_pow_add_two_pow_le b a c hba (by omega)
    omega

/-! ## The allocation engine: available prefixes -/

/-- The half-open integer interval covered by a prefix. -/
def childIv (c : Pfx) : ℕ × ℕ := (c.network, c.network + c.size)

/-- Modelled from the spec: `Prefix.get_available_prefixes` (the model code
`nautobot/ipam/models.py` is not under `src/`; only its test is).  Per the
spec it returns `IPSet(parent) - IPSet(children)` as the minimal set of
covering CIDRs: the maximal free gaps of the parent's range, each split into
the canonical minimal CIDR partition.  `children` is the sorted list of the
parent's child prefixes. -/
def get_available_prefixes (p : Pfx) (children : List Pfx) : List Pfx :=
  (availBlocks p.network (p.network + p.size) (children.map childIv)).map
    fun b => ⟨p.bits, b.1, p.bits - b.2⟩

/-- Modelled from the spec: `Prefix.get_first_available_cidr` (model code
not under `src/`; its test is).  Returns the first CIDR of the available
set, or none when the parent is fully allocated. -/
def get_first_available_cidr (p : Pfx) (children : List Pfx) : Option Pfx :=
  (get_available_prefixes p children).head?

/-- The children are pairwise non-overlapping prefixes contained in the
parent's range, listed in ascending order (the canonical listing of a set of
non-overlapping child prefixes). -/
def ChildrenSeq (p : Pfx) (cs : List Pfx) : Prop :=
  Seq p.network (p.network + p.size) (cs.map childIv)

instance (p : Pfx) (cs : List Pfx) : Decidable (ChildrenSeq p cs) := by
  unfold ChildrenSeq; infer_instance

theorem Pfx.Valid.range_le {p : Pfx} (h : p.Valid) : p.network + p.size ≤ 2 ^ p.bits := by
  obtain ⟨h1, h2, h3⟩ := h
  have hdvd : p.size ∣ p.network := Nat.dvd_of_mod_eq_zero h3
  obtain ⟨m, hm⟩ := hdvd
  have hsz : p.size * 2 ^ p.plen = 2 ^ p.bits := by
    unfold Pfx.size
    rw [← pow_add]
    congr 1
    omega
  have hspos : 0 < p.size := Nat.pos_pow_of_pos _ (by norm_num)
  have hm' : m < 2 ^ p.plen := by
    by_contra hge
    push_neg at hge
    have hle : p.size * 2 ^ p.plen ≤ p.size * m := Nat.mul_le_mul_left _ hge
    rw [hsz, ← hm] at hle
    omega
  have hle2 : p.size * (m + 1) ≤ p.size * 2 ^ p.plen := Nat.mul_le_mul_left _ (by omega)
  rw [hsz] at hle2
  calc p.network + p.size = p.size * (m + 1) := by rw [hm]; ring
    _ ≤ 2 ^ p.bits := hle2

theorem availBlocks_exp_le {p : Pfx} {cs : List Pfx} (hv : p.Valid) (hseq : ChildrenSeq p cs) :
    ∀ b ∈ availBlocks p.network (p.network + p.size) (cs.map childIv), b.2 ≤ p.bits := by
  intro b hb
  have h := availBlocks_bounds hseq b hb
  have hr := hv.range_le
  have hle : 2 ^ b.2 ≤ 2 ^ p.bits := by omega
  exact (Nat.pow_le_pow_iff_right (by norm_num)).mp hle

theorem availBlocks_pfx_size {p : Pfx} {cs : List Pfx} (hv : p.Valid)
    (hseq : ChildrenSeq p cs) {b : ℕ × ℕ}
    (hb : b ∈ availBlocks p.network (p.network + p.size) (cs.map childIv)) :
    (Pfx.mk p.bits b.1 (p.bits - b.2)).size = 2 ^ b.2 := by
  have := availBlocks_exp_le hv hseq b hb
  unfold Pfx.size
  congr 1
  simp only
  omega

/-- Coverage: the available prefixes cover exactly the parent's range minus
the children's ranges. -/
theorem avail_pfx_cover {p : Pfx} {cs : List Pfx} (hv : p.Valid) (hseq : ChildrenSeq p cs)
    (x : ℕ) :
    (∃ q ∈ get_available_prefixes p cs, q.Mem x) ↔
      (p.Mem x ∧ ∀ c ∈ cs, ¬ c.Mem x) := by
  have hcover := availBlocks_cover hseq x
  unfold get_available_prefixes
  constructor
  · rintro ⟨q, hq, hqx⟩
    obtain ⟨b, hb, rfl⟩ := List.mem_map.mp hq
    rw [Pfx.Mem, availBlocks_pfx_size hv hseq hb] at hqx
    obtain ⟨hx, hfree⟩ := hcover.mp ⟨b, hb, hqx⟩
    refine ⟨hx, ?_⟩
    intro c hc
    have := hfree (childIv c) (List.mem_map_of_mem childIv hc)
    exact this
  · rintro ⟨hx, hfree⟩
    have hfree' : ∀ iv ∈ cs.map childIv, ¬(iv.1 ≤ x ∧ x < iv.2) := by
      intro iv hiv
      obtain ⟨c, hc, rfl⟩ := List.mem_map.mp hiv
      exact hfree c hc
    obtain ⟨b, hb, hbx⟩ := hcover.mpr ⟨hx, hfree'⟩
    refine ⟨⟨p.bits, b.1, p.bits - b.2⟩, List.mem_map_of_mem _ hb, ?_⟩
    rw [Pfx.Mem, availBlocks_pfx_size hv hseq hb]
    exact hbx

/-- Every returned available prefix is a canonical CIDR of the parent's
address family. -/
theorem avail_pfx_valid {p : Pfx} {cs : List Pfx} (hv : p.Valid) (hseq : ChildrenSeq p cs) :
    ∀ q ∈ get_available_prefixes p cs, q.Valid ∧ q.bits = p.bits := by
  intro q hq
  obtain ⟨b, hb, rfl⟩ := List.mem_map.mp hq
  have hbd := availBlocks_bounds hseq b hb
  have hr := hv.range_le
  have hpos : 0 < 2 ^ b.2 := Nat.pos_pow_of_pos _ (by norm_num)
  refine ⟨⟨by simp only; omega, by simp only; omega, ?_⟩, rfl⟩
  rw [availBlocks_pfx_size hv hseq hb]
  exact Nat.mod_eq_zero_of_dvd hbd.2.2

/-- The available prefixes are returned in ascending order and are pairwise
disjoint (each block ends no later than the next begins). -/
theorem avail_pfx_chain {p : Pfx} {cs : List Pfx} (hv : p.Valid) (hseq : ChildrenSeq p cs) :
    (get_available_prefixes p cs).Pairwise
      (fun q r => q.network + q.size ≤ r.network) := by
  unfold get_available_prefixes
  apply List.pairwise_map.mpr
  refine (availBlocks_pairwise hseq).imp_of_mem ?_
  intro b c hb hc hbc
  simp only
  rw [availBlocks_pfx_size hv hseq hb]
  exact hbc.1


/-- The ∀∀ form of minimality over available blocks. -/
theorem availBlocks_minimal {L H : ℕ} {cs : List (ℕ × ℕ)} (h : Seq L H cs) :
    ∀ b ∈ availBlocks L H cs, ∀ c ∈ availBlocks L H cs, b.1 + 2 ^ b.2 = c.1 →
      ¬(b.2 = c.2 ∧ 2 ^ (b.2 + 1) ∣ b.1) := by
  intro b hb c hc hadj hmerge
  have hbpos : 0 < 2 ^ b.2 := Nat.pos_pow_of_pos _ (by norm_num)
  have hcpos : 0 < 2 ^ c.2 := Nat.pos_pow_of_pos _ (by norm_num)
  by_cases hbc : b = c
  · subst hbc
    omega
  · have hpw : (availBlocks L H cs).Pairwise (fun b c => MergeRel b c ∨ MergeRel c b) :=
      (availBlocks_pairwise h).imp (fun hr => Or.inl hr)
    have hsym : Symmetric (fun b c : ℕ × ℕ => MergeRel b c ∨ MergeRel c b) :=
      fun x y hxy => hxy.symm
    rcases hpw.forall hsym hb hc hbc with hm1 | hm2
    · exact hm1.2 hadj hmerge
    · have hord := hm2.1
      omega

/-- Minimality in the claim's terms: no single valid CIDR covers exactly the
union of two adjacent returned blocks. -/
theorem avail_pfx_minimal {p : Pfx} {cs : List Pfx} (hv : p.Valid) (hseq : ChildrenSeq p cs) :
    ∀ q ∈ get_available_prefixes p cs, ∀ r ∈ get_available_prefixes p cs,
      q.network + q.size = r.network →
        ¬ ∃ m : Pfx, m.Valid ∧ m.network = q.network ∧
            m.network + m.size = r.network + r.size := by
  intro q hq r hr hadj ⟨m, hmv, hmn, hme⟩
  obtain ⟨b, hb, rfl⟩ := List.mem_map.mp hq
  obtain ⟨c, hc, rfl⟩ := List.mem_map.mp hr
  have hbs := availBlocks_pfx_size hv hseq hb
  have hcs := availBlocks_pfx_size hv hseq hc
  have hbn : (Pfx.mk p.bits b.1 (p.bits - b.2)).network = b.1 := rfl
  have hcn : (Pfx.mk p.bits c.1 (p.bits - c.2)).network = c.1 := rfl
  rw [hbs] at hadj
  rw [hcs] at hme
  rw [hbn] at hadj hmn
  rw [hcn] at hadj hme
  have hmsize : m.size = 2 ^ b.2 + 2 ^ c.2 := by omega
  obtain ⟨hceq, hexp⟩ := two_pow_add_two_pow (c := m.bits - m.plen) (by
    rw [← hmsize]; rfl)
  have hdvd : 2 ^ (b.2 + 1) ∣ b.1 := by
    have h3 := hmv.2.2
    have hdm : m.size ∣ m.network := Nat.dvd_of_mod_eq_zero h3
    rw [Pfx.size, hexp, hmn] at hdm
    exact hdm
  exact availBlocks_minimal hseq b hb c hc hadj ⟨hceq.symm, hdvd⟩

/-! ## Claim C1 -/

/-- C1: for every valid parent CIDR `P` and pairwise non-overlapping child
prefixes contained in `P` (listed in ascending order), `get_available_prefixes`
returns exactly the set-difference of `P`'s range minus the union of the
children's ranges, as pairwise-disjoint valid CIDR blocks that are minimal
(no two adjacent returned blocks merge into a single larger valid CIDR); and
for parent 10.0.0.0/16 with children 10.0.0.0/20, 10.0.32.0/20, 10.0.128.0/18
the result is exactly 10.0.16.0/20, 10.0.48.0/20, 10.0.64.0/18, 10.0.192.0/18. -/
theorem C1_get_available_prefixes :
    (∀ (p : Pfx) (cs : List Pfx), p.Valid → (∀ c ∈ cs, c.Valid ∧ c.bits = p.bits) →
      ChildrenSeq p cs →
      ((∀ x, (∃ q ∈ get_available_prefixes p cs, q.Mem x) ↔
          (p.Mem x ∧ ∀ c ∈ cs, ¬ c.Mem x)) ∧
       (∀ q ∈ get_available_prefixes p cs, q.Valid ∧ q.bits = p.bits) ∧
       (get_available_prefixes p cs).Pairwise
         (fun q r => q.network + q.size ≤ r.network) ∧
       (∀ q ∈ get_available_prefixes p cs, ∀ r ∈ get_available_prefixes p cs,
          q.network + q.size = r.network →
            ¬ ∃ m : Pfx, m.Valid ∧ m.network = q.network ∧
                m.network + m.size = r.network + r.size))) ∧
    get_available_prefixes (v4p 10 0 0 0 16)
        [v4p 10 0 0 0 20, v4p 10 0 32 0 20, v4p 10 0 128 0 18] =
      [v4p 10 0 16 0 20, v4p 10 0 48 0 20, v4p 10 0 64 0 18, v4p 10 0 192 0 18] := by
  constructor
  · intro p cs hv _ hseq
    exact ⟨avail_pfx_cover hv hseq, avail_pfx_valid hv hseq, avail_pfx_chain hv hseq,
      avail_pfx_minimal hv hseq⟩
  · decide

/-- Witness for C1: the hypotheses hold at the test scenario, and the theorem
applies there. -/
theorem C1_get_available_prefixes_witness :
    (v4p 10 0 0 0 16).Valid ∧
    (∀ c ∈ [v4p 10 0 0 0 20, v4p 10 0 32 0 20, v4p 10 0 128 0 18],
      c.Valid ∧ c.bits = 32) ∧
    ChildrenSeq (v4p 10 0 0 0 16) [v4p 10 0 0 0 20, v4p 10 0 32 0 20, v4p 10 0 128 0 18] ∧
    (∀ q ∈ get_available_prefixes (v4p 10 0 0 0 16)
        [v4p 10 0 0 0 20, v4p 10 0 32 0 20, v4p 10 0 128 0 18],
      q.Valid ∧ q.bits = 32) :=
  ⟨by decide, by decide, by decide,
    (C1_get_available_prefixes.1 (v4p 10 0 0 0 16)
      [v4p 10 0 0 0 20, v4p 10 0 32 0 20, v4p 10 0 128 0 18]
      (by decide) (by decide) (by decide)).2.1⟩

/-! ## Claim C2 -/

/-- C2 (counterexample): the claim says `get_first_available_cidr` with no
requested length returns the *largest* available block.  In the test scenario
(parent 10.0.0.0/16, children 10.0.0.0/24, 10.0.1.0/24, 10.0.2.0/24) the
function returns 10.0.3.0/24 — as the repository's test asserts — even though
10.0.128.0/17, a strictly larger block, is available.  So the returned block
is not the largest available block. -/
theorem C2_counterexample :
    get_first_available_cidr (v4p 10 0 0 0 16)
        [v4p 10 0 0 0 24, v4p 10 0 1 0 24, v4p 10 0 2 0 24] = some (v4p 10 0 3 0 24) ∧
    v4p 10 0 128 0 17 ∈ get_available_prefixes (v4p 10 0 0 0 16)
        [v4p 10 0 0 0 24, v4p 10 0 1 0 24, v4p 10 0 2 0 24] ∧
    (v4p 10 0 3 0 24).size < (v4p 10 0 128 0 17).size := by
  refine ⟨by decide, by decide, by decide⟩

/-- C2 (amended): `get_first_available_cidr` returns the numerically first
(lexicographically smallest) block of the available set, regardless of size —
none when the parent is fully allocated; in the test scenario it returns
10.0.3.0/24, and 10.0.4.0/22 once 10.0.3.0/24 is also taken. -/
theorem C2_get_first_available_cidr :
    (∀ (p : Pfx) (cs : List Pfx), p.Valid → ChildrenSeq p cs →
      ((get_first_available_cidr p cs = none ↔ get_available_prefixes p cs = []) ∧
       (∀ q, get_first_available_cidr p cs = some q →
         q ∈ get_available_prefixes p cs ∧
           ∀ r ∈ get_available_prefixes p cs, q.network ≤ r.network))) ∧
    get_first_available_cidr (v4p 10 0 0 0 16)
        [v4p 10 0 0 0 24, v4p 10 0 1 0 24, v4p 10 0 2 0 24] = some (v4p 10 0 3 0 24) ∧
    get_first_available_cidr (v4p 10 0 0 0 16)
        [v4p 10 0 0 0 24, v4p 10 0 1 0 24, v4p 10 0 2 0 24, v4p 10 0 3 0 24] =
      some (v4p 10 0 4 0 22) := by
  refine ⟨?_, by decide, by decide⟩
  intro p cs hv hseq
  have hchain := avail_pfx_chain hv hseq
  unfold get_first_available_cidr
  cases hres : get_available_prefixes p cs with
  | nil => simp
  | cons q t =>
    rw [hres] at hchain
    simp only [List.head?_cons]
    constructor
    · simp
    · intro q' hq'
      obtain rfl : q = q' := by
        simpa using hq'
      refine ⟨List.mem_cons_self _ _, ?_⟩
      intro r hr
      rcases List.mem_cons.mp hr with rfl | hrt
      · exact le_refl _
      · have := (List.pairwise_cons.mp hchain).1 r hrt
        omega

/-- Witness for C2's amended theorem at the test scenario. -/
theorem C2_get_first_available_cidr_witness :
    (v4p 10 0 0 0 16).Valid ∧
    ChildrenSeq (v4p 10 0 0 0 16) [v4p 10 0 0 0 24, v4p 10 0 1 0 24, v4p 10 0 2 0 24] ∧
    v4p 10 0 3 0 24 ∈ get_available_prefixes (v4p 10 0 0 0 16)
        [v4p 10 0 0 0 24, v4p 10 0 1 0 24, v4p 10 0 2 0 24] ∧
    (∀ r ∈ get_available_prefixes (v4p 10 0 0 0 16)
        [v4p 10 0 0 0 24, v4p 10 0 1 0 24, v4p 10 0 2 0 24],
      (v4p 10 0 3 0 24).network ≤ r.network) :=
  have h := ((C2_get_first_available_cidr.1 (v4p 10 0 0 0 16)
      [v4p 10 0 0 0 24, v4p 10 0 1 0 24, v4p 10 0 2 0 24]
      (by decide) (by decide)).2 (v4p 10 0 3 0 24) (by decide))
  ⟨by decide, by decide, h.1, h.2⟩

/-! ## Containment Tree Maintainer

The tree state is the list of prefixes stored in one scope (namespace);
`insert` adds a record, `delete` removes one, and the `parent` pointer is
derived from range containment and recomputed from the stored records, as
the spec describes (foreign key recomputed by the Tree Maintainer). -/

/-- Zero the host bits of `x` below the top `plen` bits of a `bits`-wide
address. -/
def maskTo (bits plen x : ℕ) : ℕ := x / 2 ^ (bits - plen) * 2 ^ (bits - plen)

/-- Containment test of the spec (§4.1): `a` contains `b` iff
`prefix_length ≤` and masked network equality. -/
def containsP (a b : Pfx) : Prop :=
  a.bits = b.bits ∧ a.plen ≤ b.plen ∧ maskTo a.bits a.plen b.network = a.network

instance (a b : Pfx) : Decidable (containsP a b) := by
  unfold containsP; infer_instance

/-- Proper containment: `a` is a strict supernet of `b`. -/
def strictSup (a b : Pfx) : Prop :=
  a.bits = b.bits ∧ a.plen < b.plen ∧ maskTo a.bits a.plen b.network = a.network

instance (a b : Pfx) : Decidable (strictSup a b) := by
  unfold strictSup; infer_instance

theorem maskTo_le (bits plen x : ℕ) : maskTo bits plen x ≤ x :=
  Nat.div_mul_le_self x _

theorem maskTo_lt (bits plen x : ℕ) : x < maskTo bits plen x + 2 ^ (bits - plen) := by
  unfold maskTo
  have h1 : x / 2 ^ (bits - plen) * 2 ^ (bits - plen) + x % 2 ^ (bits - plen) = x :=
    Nat.div_add_mod' x _
  have h2 : x % 2 ^ (bits - plen) < 2 ^ (bits - plen) :=
    Nat.mod_lt x (Nat.pos_pow_of_pos _ (by norm_num))
  omega

theorem maskTo_maskTo {bits k m : ℕ} (h : k ≤ m) (x : ℕ) :
    maskTo bits k (maskTo bits m x) = maskTo bits k x := by
  unfold maskTo
  have hsplit : 2 ^ (bits - k) = 2 ^ (bits - m) * 2 ^ ((bits - k) - (bits - m)) := by
    rw [← pow_add]
    congr 1
    omega
  have hpos : 0 < 2 ^ (bits - m) := Nat.pos_pow_of_pos _ (by norm_num)
  rw [hsplit]
  congr 1
  rw [Nat.mul_comm (x / 2 ^ (bits - m)) (2 ^ (bits - m)), Nat.mul_div_mul_left _ _ hpos,
    Nat.div_div_eq_div_mul]

theorem maskTo_mono {bits k m : ℕ} (h : k ≤ m) (x : ℕ) :
    maskTo bits k x ≤ maskTo bits m x := by
  calc maskTo bits k x = maskTo bits k (maskTo bits m x) := (maskTo_maskTo h x).symm
    _ ≤ maskTo bits m x := maskTo_le _ _ _

/-- Two supernets of a common prefix are nested, smaller prefix length
outermost. -/
theorem strictSup_nested {a b p : Pfx} (ha : strictSup a p) (hb : strictSup b p)
    (hpl : a.plen ≤ b.plen) : containsP a b := by
  obtain ⟨hab, hal, ham⟩ := ha
  obtain ⟨hbb, hbl, hbm⟩ := hb
  have hba : b.bits = a.bits := by rw [hbb, ← hab]
  refine ⟨by omega, hpl, ?_⟩
  rw [← hba, ← hbm, maskTo_maskTo hpl, hba]
  exact ham

/-- Supernets of a common prefix with equal prefix length coincide. -/
theorem strictSup_unique {a b p : Pfx} (ha : strictSup a p) (hb : strictSup b p)
    (hpl : a.plen = b.plen) : a = b := by
  obtain ⟨hab, hal, ham⟩ := ha
  obtain ⟨hbb, hbl, hbm⟩ := hb
  have hba : b.bits = a.bits := by rw [hbb, ← hab]
  have hnet : a.network = b.network := by
    rw [← ham, ← hbm, hba, hpl]
  cases a
  cases b
  simp only at hba hpl hnet
  simp [hba, hpl, hnet]

theorem strictSup_trans {a b c : Pfx} (hab : strictSup a b) (hbc : strictSup b c) :
    strictSup a c := by
  obtain ⟨h1, h2, h3⟩ := hab
  obtain ⟨h4, h5, h6⟩ := hbc
  refine ⟨by rw [h1, h4], by omega, ?_⟩
  rw [h1, ← maskTo_maskTo (le_of_lt h2) c.network, h6, ← h1]
  exact h3

/-- Pick the candidate with the longer prefix length. -/
def better (q : Pfx) : Option Pfx → Option Pfx
  | none => some q
  | some r => if r.plen < q.plen then some q else some r

/-- The derived parent pointer: the strict supernet of `p` in the stored
records with the longest prefix length (smallest enclosing prefix), none if
no stored prefix contains `p`.  Mirrors the "longest matching supernet"
recomputation of the tree maintainer. -/
def parentOf (p : Pfx) : List Pfx → Option Pfx
  | [] => none
  | q :: rest => if strictSup q p then better q (parentOf p rest) else parentOf p rest

theorem parentOf_none_iff {p : Pfx} : ∀ {S : List Pfx},
    parentOf p S = none ↔ ∀ q ∈ S, ¬ strictSup q p := by
  intro S
  induction S with
  | nil => simp [parentOf]
  | cons q rest ih =>
    rw [parentOf]
    by_cases hq : strictSup q p
    · simp only [if_pos hq]
      constructor
      · intro h
        exfalso
        rcases hb : parentOf p rest with - | r <;> rw [hb] at h <;> simp [better] at h
        split at h <;> simp at h
      · intro h
        exact absurd hq (h q (List.mem_cons_self q rest))
    · simp only [if_neg hq]
      rw [ih]
      constructor
      · intro h r hr
        rcases List.mem_cons.mp hr with rfl | hr2
        · exact hq
        · exact h r hr2
      · intro h r hr
        exact h r (List.mem_cons_of_mem q hr)

theorem parentOf_some_spec {p : Pfx} : ∀ {S : List Pfx} {r : Pfx},
    parentOf p S = some r →
      r ∈ S ∧ strictSup r p ∧ ∀ q ∈ S, strictSup q p → q.plen ≤ r.plen := by
  intro S
  induction S with
  | nil => intro r h; simp [parentOf] at h
  | cons q rest ih =>
    intro r h
    rw [parentOf] at h
    by_cases hq : strictSup q p
    · simp only [if_pos hq] at h
      rcases hb : parentOf p rest with - | b <;> rw [hb] at h <;> simp only [better] at h
      · rcases Option.some.inj h with rfl
        have hnone := parentOf_none_iff.mp hb
        refine ⟨List.mem_cons_self q rest, hq, ?_⟩
        intro s hs hss
        rcases List.mem_cons.mp hs with rfl | hs2
        · exact le_refl _
        · exact absurd hss (hnone s hs2)
      · obtain ⟨hbmem, hbsup, hbmax⟩ := ih hb
        split at h
        · rcases Option.some.inj h with rfl
          refine ⟨List.mem_cons_self q rest, hq, ?_⟩
          intro s hs hss
          rcases List.mem_cons.mp hs with rfl | hs2
          · exact le_refl _
          · have := hbmax s hs2 hss
            omega
        · rcases Option.some.inj h with rfl
          refine ⟨List.mem_cons_of_mem q hbmem, hbsup, ?_⟩
          intro s hs hss
          rcases List.mem_cons.mp hs with rfl | hs2
          · omega
          · exact hbmax s hs2 hss
    · simp only [if_neg hq] at h
      obtain ⟨hbmem, hbsup, hbmax⟩ := ih h
      refine ⟨List.mem_cons_of_mem q hbmem, hbsup, ?_⟩
      intro s hs hss
      rcases List.mem_cons.mp hs with rfl | hs2
      · exact absurd hss hq
      · exact hbmax s hs2 hss

theorem parentOf_eq_some {p r : Pfx} : ∀ {S : List Pfx}, r ∈ S → strictSup r p →
    (∀ q ∈ S, strictSup q p → q.plen ≤ r.plen) → parentOf p S = some r := by
  intro S
  induction S with
  | nil => intro h; simp at h
  | cons q rest ih =>
    intro hmem hsup hmax
    rw [parentOf]
    by_cases hq : strictSup q p
    · simp only [if_pos hq]
      rcases hb : parentOf p rest with - | b
      · -- no supernet in rest, so r must be q
        have hnone := parentOf_none_iff.mp hb
        rcases List.mem_cons.mp hmem with rfl | hr2
        · rfl
        · exact absurd hsup (hnone r hr2)
      · obtain ⟨hbmem, hbsup, hbmax⟩ := parentOf_some_spec hb
        have hble : b.plen ≤ r.plen := hmax b (List.mem_cons_of_mem q hbmem) hbsup
        rcases List.mem_cons.mp hmem with rfl | hr2
        · -- r = q
          simp only [better]
          by_cases hlt : b.plen < r.plen
          · rw [if_pos hlt]
          · have hbe : b = r := strictSup_unique hbsup hsup (by omega)
            rw [if_neg hlt, hbe]
        · -- r ∈ rest: maximality in both directions forces b = r
          have hrb : r.plen ≤ b.plen := hbmax r hr2 hsup
          have hbe : b = r := strictSup_unique hbsup hsup (by omega)
          have hqle : q.plen ≤ r.plen := hmax q (List.mem_cons_self q rest) hq
          rw [hbe]
          simp only [better]
          rw [if_neg (by omega : ¬ r.plen < q.plen)]
    · simp only [if_neg hq]
      rcases List.mem_cons.mp hmem with rfl | hr2
      · exact absurd hsup hq
      · exact ih hr2 hsup fun s hs hss => hmax s (List.mem_cons_of_mem q hs) hss

/-- Inserting a prefix record into the scope's stored list (the derived
parent pointers are recomputed by `parentOf`, so no stored field changes). -/
def insertPfx (S : List Pfx) (p : Pfx) : List Pfx := p :: S

/-- Deleting a prefix record from the scope's stored list. -/
def deletePfx (S : List Pfx) (p : Pfx) : List Pfx := S.erase p

/-- A strict supernet of `c` that is not `c`'s parent is a strict supernet
of the parent. -/
theorem strictSup_of_parent {S : List Pfx} {p c q : Pfx}
    (hp : parentOf c S = some p) (hq : q ∈ S) (hqs : strictSup q c) (hne : q ≠ p) :
    strictSup q p := by
  obtain ⟨hpmem, hpsup, hpmax⟩ := parentOf_some_spec hp
  have hle : q.plen ≤ p.plen := hpmax q hq hqs
  have hcont : containsP q p := strictSup_nested hqs hpsup hle
  rcases Nat.lt_or_ge q.plen p.plen with hlt | hge
  · exact ⟨hcont.1, hlt, hcont.2.2⟩
  · exact absurd (strictSup_unique hqs hpsup (by omega)) hne

/-- Deleting a node re-points each of its direct children to the deleted
node's own parent (one level only). -/
theorem delete_reparents {S : List Pfx} {p c : Pfx} (hnd : S.Nodup)
    (hc : parentOf c S = some p) :
    parentOf c (deletePfx S p) = parentOf p S := by
  obtain ⟨hpmem, hpsup, hpmax⟩ := parentOf_some_spec hc
  rcases hps : parentOf p S with - | r
  · -- p is a root: its children become roots after the delete
    apply parentOf_none_iff.mpr
    intro q hq hqs
    have hq2 := (List.Nodup.mem_erase_iff hnd).mp hq
    exact parentOf_none_iff.mp hps q hq2.2 (strictSup_of_parent hc hq2.2 hqs hq2.1)
  · obtain ⟨hrmem, hrsup, hrmax⟩ := parentOf_some_spec hps
    apply parentOf_eq_some
    · apply (List.Nodup.mem_erase_iff hnd).mpr
      refine ⟨?_, hrmem⟩
      intro hrp
      have := hrsup.2.1
      rw [hrp] at this
      omega
    · exact strictSup_trans hrsup hpsup
    · intro q hq hqs
      have hq2 := (List.Nodup.mem_erase_iff hnd).mp hq
      exact hrmax q hq2.2 (strictSup_of_parent hc hq2.2 hqs hq2.1)

/-- Re-inserting a prefix equal to the deleted one restores it as the parent
of its former children. -/
theorem insert_restores {S : List Pfx} {p c : Pfx} (hc : parentOf c S = some p) :
    parentOf c (insertPfx (deletePfx S p) p) = some p := by
  obtain ⟨hpmem, hpsup, hpmax⟩ := parentOf_some_spec hc
  apply parentOf_eq_some (List.mem_cons_self _ _) hpsup
  intro q hq hqs
  rcases List.mem_cons.mp hq with rfl | hq2
  · exact le_refl _
  · exact hpmax q (List.mem_of_mem_erase hq2) hqs

/-- Proper range containment: `a` covers all of `b`'s range and is a
different prefix of the same family. -/
def properSup (a b : Pfx) : Prop :=
  a.bits = b.bits ∧ a ≠ b ∧ a.network ≤ b.network ∧
    b.network + b.size ≤ a.network + a.size

instance (a b : Pfx) : Decidable (properSup a b) := by
  unfold properSup; infer_instance

/-- For canonical prefixes, the spec's mask-based strict containment test
coincides with proper range containment. -/
theorem properSup_iff_strictSup {a b : Pfx} (ha : a.Valid) (hb : b.Valid) :
    properSup a b ↔ strictSup a b := by
  obtain ⟨hal, han, ham⟩ := ha
  obtain ⟨hbl, hbn, hbm⟩ := hb
  have haspos : 0 < a.size := Nat.pos_pow_of_pos _ (by norm_num)
  have hbspos : 0 < b.size := Nat.pos_pow_of_pos _ (by norm_num)
  constructor
  · rintro ⟨hbit, hne, h1, h2⟩
    have hsize : b.size ≤ a.size := by omega
    have hplen : a.plen ≤ b.plen := by
      have := (Nat.pow_le_pow_iff_right (a := 2) (by norm_num)).mp hsize
      omega
    have hplt : a.plen < b.plen := by
      rcases Nat.lt_or_ge a.plen b.plen with h | h
      · exact h
      · exfalso
        have hpe : a.plen = b.plen := by omega
        have hse : a.size = b.size := by unfold Pfx.size; rw [hbit, hpe]
        have hnet : a.network = b.network := by omega
        apply hne
        cases a
        cases b
        simp only at hbit hpe hnet
        simp [hbit, hpe, hnet]
    refine ⟨hbit, hplt, ?_⟩
    -- b.network lies in a's block and a.network is aligned
    have hdvd : a.size ∣ a.network := Nat.dvd_of_mod_eq_zero ham
    obtain ⟨m, hm⟩ := hdvd
    have hlt : b.network < a.network + a.size := by omega
    have hdiv : b.network / a.size = m := by
      apply Nat.div_eq_of_lt_le
      · rw [Nat.mul_comm, ← hm]; exact h1
      · rw [Nat.add_mul, one_mul, Nat.mul_comm, ← hm]; exact hlt
    show b.network / 2 ^ (a.bits - a.plen) * 2 ^ (a.bits - a.plen) = a.network
    have : (2 : ℕ) ^ (a.bits - a.plen) = a.size := rfl
    rw [this, hdiv, Nat.mul_comm, ← hm]
  · rintro ⟨hbit, hplt, hm⟩
    have hne : a ≠ b := by
      intro he
      rw [he] at hplt
      omega
    have h1 : a.network ≤ b.network := by
      rw [← hm]
      exact maskTo_le _ _ _
    have hlt : b.network < a.network + a.size := by
      have := maskTo_lt a.bits a.plen b.network
      rw [hm] at this
      exact this
    have hbsa : b.size ∣ a.size := by
      unfold Pfx.size
      rw [hbit]
      exact pow_dvd_pow 2 (by omega)
    have hbdvdan : b.size ∣ a.network :=
      dvd_trans hbsa (Nat.dvd_of_mod_eq_zero ham)
    have hbdvdbn : b.size ∣ b.network := Nat.dvd_of_mod_eq_zero hbm
    refine ⟨hbit, hne, h1, ?_⟩
    have htpos : 0 < a.network + a.size - b.network := by omega
    have htdvd : b.size ∣ (a.network + a.size - b.network) :=
      Nat.dvd_sub' (Nat.dvd_add hbdvdan hbsa) hbdvdbn
    have := Nat.le_of_dvd htpos htdvd
    omega

/-- The tree scenario of the repository's tests: 101.102.0.0/24 with a /25
child and two /26 grandchildren. -/
def demoScope : List Pfx :=
  [v4p 101 102 0 0 24, v4p 101 102 0 0 25, v4p 101 102 0 0 26, v4p 101 102 0 64 26]

/-! ## Claim C3 -/

/-- C3: after every insert or delete, each prefix's parent is the smallest
stored prefix of the scope that properly contains it (none when no stored
prefix contains it); deleting a prefix re-points each of its direct children
to the deleted node's own parent (one level only); re-inserting an equal
prefix restores it as the parent of those former children; and in the test
scenario, deleting 101.102.0.0/25 re-parents its two /26 children to
101.102.0.0/24 and re-creating the /25 makes it their parent again.  (The
parent pointer is derived by `parentOf` from the stored records, so the
characterization holds after any sequence of inserts and deletes.) -/
theorem C3_reparenting :
    (∀ (S : List Pfx) (p : Pfx), p.Valid → (∀ q ∈ S, q.Valid) →
      ((parentOf p S = none ↔ ∀ q ∈ S, ¬ properSup q p) ∧
       (∀ r, parentOf p S = some r →
          r ∈ S ∧ properSup r p ∧ ∀ q ∈ S, properSup q p → r.size ≤ q.size))) ∧
    (∀ (S : List Pfx) (p c : Pfx), S.Nodup → parentOf c S = some p →
      parentOf c (deletePfx S p) = parentOf p S) ∧
    (∀ (S : List Pfx) (p c : Pfx), parentOf c S = some p →
      parentOf c (insertPfx (deletePfx S p) p) = some p) ∧
    (parentOf (v4p 101 102 0 0 26) demoScope = some (v4p 101 102 0 0 25) ∧
     parentOf (v4p 101 102 0 64 26) demoScope = some (v4p 101 102 0 0 25) ∧
     parentOf (v4p 101 102 0 0 25) demoScope = some (v4p 101 102 0 0 24) ∧
     parentOf (v4p 101 102 0 0 26) (deletePfx demoScope (v4p 101 102 0 0 25)) =
       some (v4p 101 102 0 0 24) ∧
     parentOf (v4p 101 102 0 64 26) (deletePfx demoScope (v4p 101 102 0 0 25)) =
       some (v4p 101 102 0 0 24) ∧
     parentOf (v4p 101 102 0 0 26)
         (insertPfx (deletePfx demoScope (v4p 101 102 0 0 25)) (v4p 101 102 0 0 25)) =
       some (v4p 101 102 0 0 25) ∧
     parentOf (v4p 101 102 0 64 26)
         (insertPfx (deletePfx demoScope (v4p 101 102 0 0 25)) (v4p 101 102 0 0 25)) =
       some (v4p 101 102 0 0 25)) := by
  refine ⟨?_, fun S p c hnd hc => delete_reparents hnd hc,
    fun S p c hc => insert_restores hc, by decide⟩
  intro S p hv hsv
  constructor
  · rw [parentOf_none_iff]
    constructor
    · intro h q hq hqs
      exact h q hq ((properSup_iff_strictSup (hsv q hq) hv).mp hqs)
    · intro h q hq hqs
      exact h q hq ((properSup_iff_strictSup (hsv q hq) hv).mpr hqs)
  · intro r hr
    obtain ⟨hrmem, hrsup, hrmax⟩ := parentOf_some_spec hr
    refine ⟨hrmem, (properSup_iff_strictSup (hsv r hrmem) hv).mpr hrsup, ?_⟩
    intro q hq hqs
    have hqs2 := (properSup_iff_strictSup (hsv q hq) hv).mp hqs
    have hple := hrmax q hq hqs2
    unfold Pfx.size
    have hbit : r.bits = q.bits := by
      have h1 := hrsup.1
      have h2 := hqs2.1
      rw [h1, h2]
    rw [hbit]
    exact pow_le_pow_right₀ (by norm_num) (by omega)

/-- Witness for C3 at the test scenario. -/
theorem C3_reparenting_witness :
    ((v4p 101 102 0 0 26).Valid ∧ (∀ q ∈ demoScope, q.Valid) ∧ demoScope.Nodup ∧
     parentOf (v4p 101 102 0 0 26) demoScope = some (v4p 101 102 0 0 25)) ∧
    (parentOf (v4p 101 102 0 0 26) (deletePfx demoScope (v4p 101 102 0 0 25)) =
      parentOf (v4p 101 102 0 0 25) demoScope) ∧
    (∀ r, parentOf (v4p 101 102 0 0 26) demoScope = some r →
      r ∈ demoScope ∧ properSup r (v4p 101 102 0 0 26) ∧
        ∀ q ∈ demoScope, properSup q (v4p 101 102 0 0 26) → r.size ≤ q.size) :=
  ⟨⟨by decide, by decide, by decide, by decide⟩,
    C3_reparenting.2.1 demoScope (v4p 101 102 0 0 25) (v4p 101 102 0 0 26)
      (by decide) (by decide),
    (C3_reparenting.1 demoScope (v4p 101 102 0 0 26) (by decide) (by decide)).2⟩

/-! ## Ordered tree queries (descendants, ancestors, supernets, subnets, root) -/

/-- The ordering of stored prefixes: ascending network address, and on equal
networks the supernet (shorter prefix length) first — the comparison order
of the address value model. -/
def keyLE (a b : Pfx) : Prop :=
  a.network < b.network ∨ (a.network = b.network ∧ a.plen ≤ b.plen)

instance (a b : Pfx) : Decidable (keyLE a b) := by
  unfold keyLE; infer_instance

theorem keyLE_total (a b : Pfx) : keyLE a b ∨ keyLE b a := by
  unfold keyLE; omega

theorem keyLE_trans {a b c : Pfx} (h1 : keyLE a b) (h2 : keyLE b c) : keyLE a c := by
  unfold keyLE at *; omega

/-- Insert into a list sorted by `keyLE`. -/
def insertSorted (q : Pfx) : List Pfx → List Pfx
  | [] => [q]
  | r :: rest => if keyLE q r then q :: r :: rest else r :: insertSorted q rest

/-- Insertion sort by `keyLE` — the `ORDER BY (network, prefix_length)` of
the tree queries. -/
def sortPfx : List Pfx → List Pfx
  | [] => []
  | q :: rest => insertSorted q (sortPfx rest)

theorem mem_insertSorted {q r : Pfx} : ∀ {l : List Pfx},
    r ∈ insertSorted q l ↔ r = q ∨ r ∈ l := by
  intro l
  induction l with
  | nil => simp [insertSorted]
  | cons s rest ih =>
    rw [insertSorted]
    split
    · simp
    · simp only [List.mem_cons, ih]
      tauto

theorem mem_sortPfx {r : Pfx} : ∀ {l : List Pfx}, r ∈ sortPfx l ↔ r ∈ l := by
  intro l
  induction l with
  | nil => simp [sortPfx]
  | cons s rest ih =>
    rw [sortPfx]
    simp only [mem_insertSorted, ih, List.mem_cons]

theorem insertSorted_sorted {q : Pfx} : ∀ {l : List Pfx},
    l.Pairwise keyLE → (insertSorted q l).Pairwise keyLE := by
  intro l
  induction l with
  | nil => intro h; simp [insertSorted]
  | cons r rest ih =>
    intro h
    obtain ⟨hhead, htail⟩ := List.pairwise_cons.mp h
    rw [insertSorted]
    split
    · refine List.pairwise_cons.mpr ⟨?_, h⟩
      intro s hs
      rcases List.mem_cons.mp hs with rfl | hs2
      · assumption
      · exact keyLE_trans (by assumption) (hhead s hs2)
    · refine List.pairwise_cons.mpr ⟨?_, ih htail⟩
      intro s hs
      rcases mem_insertSorted.mp hs with rfl | hs2
      · rcases keyLE_total s r with h1 | h1
        · exact absurd h1 (by assumption)
        · exact h1
      · exact hhead s hs2

theorem sortPfx_sorted : ∀ (l : List Pfx), (sortPfx l).Pairwise keyLE := by
  intro l
  induction l with
  | nil => simp [sortPfx]
  | cons q rest ih =>
    rw [sortPfx]
    exact insertSorted_sorted ih

/-- `descendants(p)`: all stored prefixes properly contained in `p`, in
ascending network order. -/
def descendants (S : List Pfx) (p : Pfx) : List Pfx :=
  sortPfx (S.filter (fun q => decide (strictSup p q)))

/-- `subnets(p)` (without `direct`): same contents as `descendants`. -/
def subnets (S : List Pfx) (p : Pfx) : List Pfx := descendants S p

/-- `supernets(p)`: all stored prefixes properly containing `p`, in ascending
network order (root first). -/
def supernets (S : List Pfx) (p : Pfx) : List Pfx :=
  sortPfx (S.filter (fun q => decide (strictSup q p)))

/-- `ancestors(p)`: ascending by default (root first), descending when
requested by the flag. -/
def ancestors (S : List Pfx) (p : Pfx) (descending : Bool) : List Pfx :=
  if descending then (supernets S p).reverse else supernets S p

/-- `root(p)`: the topmost ancestor of `p`, none when `p` itself is a root. -/
def rootOf (S : List Pfx) (p : Pfx) : Option Pfx := (supernets S p).head?

theorem strictSup_network_le {a b p : Pfx} (ha : strictSup a p) (hb : strictSup b p)
    (hpl : a.plen ≤ b.plen) : a.network ≤ b.network := by
  obtain ⟨hab, -, ham⟩ := ha
  obtain ⟨hbb, -, hbm⟩ := hb
  rw [← ham, ← hbm, hab, hbb]
  exact maskTo_mono hpl p.network

theorem supernet_plen_le_of_keyLE {a b p : Pfx} (ha : strictSup a p) (hb : strictSup b p)
    (hk : keyLE a b) : a.plen ≤ b.plen := by
  rcases le_or_lt a.plen b.plen with h | h
  · exact h
  · exfalso
    have hle := strictSup_network_le hb ha (le_of_lt h)
    unfold keyLE at hk
    omega

theorem containsP_self {p : Pfx} (h : p.Valid) : containsP p p := by
  refine ⟨rfl, le_refl _, ?_⟩
  unfold maskTo
  have hdvd : 2 ^ (p.bits - p.plen) ∣ p.network := Nat.dvd_of_mod_eq_zero h.2.2
  exact Nat.div_mul_cancel hdvd

/-! ## Claim C8 -/

/-- C8: `descendants`/`subnets` are returned in ascending network order and
contain exactly the stored prefixes properly contained in `p`;
`ancestors`/`supernets` are returned ascending by default (root first) and
descending when requested; and the test scenario lists come out in exactly
the tested order. -/
theorem C8_tree_ordering :
    (∀ (S : List Pfx) (p : Pfx),
      ((descendants S p).Pairwise keyLE ∧
        (∀ q, q ∈ descendants S p ↔ q ∈ S ∧ strictSup p q)) ∧
      subnets S p = descendants S p ∧
      ((supernets S p).Pairwise keyLE ∧
        (∀ q, q ∈ supernets S p ↔ q ∈ S ∧ strictSup q p)) ∧
      (ancestors S p false = supernets S p ∧
        ancestors S p true = (supernets S p).reverse)) ∧
    (descendants demoScope (v4p 101 102 0 0 24) =
        [v4p 101 102 0 0 25, v4p 101 102 0 0 26, v4p 101 102 0 64 26] ∧
     subnets demoScope (v4p 101 102 0 0 24) =
        [v4p 101 102 0 0 25, v4p 101 102 0 0 26, v4p 101 102 0 64 26] ∧
     supernets demoScope (v4p 101 102 0 0 26) =
        [v4p 101 102 0 0 24, v4p 101 102 0 0 25] ∧
     ancestors demoScope (v4p 101 102 0 0 26) false =
        [v4p 101 102 0 0 24, v4p 101 102 0 0 25] ∧
     ancestors demoScope (v4p 101 102 0 0 26) true =
        [v4p 101 102 0 0 25, v4p 101 102 0 0 24]) := by
  constructor
  · intro S p
    refine ⟨⟨sortPfx_sorted _, ?_⟩, rfl, ⟨sortPfx_sorted _, ?_⟩, rfl, rfl⟩
    · intro q
      rw [descendants, mem_sortPfx, List.mem_filter]
      simp
    · intro q
      rw [supernets, mem_sortPfx, List.mem_filter]
      simp
  · exact ⟨by decide, by decide, by decide, by decide, by decide⟩

/-! ## Claim C10 -/

/-- C10: for a prefix with no containing prefix in the scope, `root` returns
none (not the prefix itself, and no error); otherwise it returns the topmost
ancestor — a stored strict supernet that contains every stored strict
supernet of the prefix.  In the test scenario, `root` of 101.102.0.0/26 is
101.102.0.0/24 and `root` of 101.102.0.0/24 is none. -/
theorem C10_root :
    (∀ (S : List Pfx) (p : Pfx), (∀ q ∈ S, q.Valid) →
      ((rootOf S p = none ↔ ∀ q ∈ S, ¬ strictSup q p) ∧
       (∀ r, rootOf S p = some r → r ∈ S ∧ strictSup r p ∧
          ∀ q ∈ S, strictSup q p → containsP r q))) ∧
    rootOf demoScope (v4p 101 102 0 0 26) = some (v4p 101 102 0 0 24) ∧
    rootOf demoScope (v4p 101 102 0 0 24) = none := by
  refine ⟨?_, by decide, by decide⟩
  intro S p hsv
  have hmem : ∀ q, q ∈ supernets S p ↔ q ∈ S ∧ strictSup q p := by
    intro q
    rw [supernets, mem_sortPfx, List.mem_filter]
    simp
  constructor
  · rw [rootOf, List.head?_eq_none_iff]
    constructor
    · intro h q hq hqs
      have : q ∈ supernets S p := (hmem q).mpr ⟨hq, hqs⟩
      rw [h] at this
      exact List.not_mem_nil q this
    · intro h
      rcases hl : supernets S p with - | ⟨r, t⟩
      · rfl
      · exfalso
        have : r ∈ supernets S p := by rw [hl]; exact List.mem_cons_self r t
        obtain ⟨hr1, hr2⟩ := (hmem r).mp this
        exact h r hr1 hr2
  · intro r hr
    rw [rootOf] at hr
    rcases hl : supernets S p with - | ⟨r0, t⟩ <;> rw [hl] at hr
    · simp at hr
    · simp only [List.head?_cons, Option.some.injEq] at hr
      subst hr
      have hsorted := sortPfx_sorted (S.filter (fun q => decide (strictSup q p)))
      rw [show sortPfx (S.filter (fun q => decide (strictSup q p))) = supernets S p
          from rfl, hl] at hsorted
      obtain ⟨hhead, -⟩ := List.pairwise_cons.mp hsorted
      have hrmem : r0 ∈ S ∧ strictSup r0 p :=
        (hmem r0).mp (by rw [hl]; exact List.mem_cons_self r0 t)
      refine ⟨hrmem.1, hrmem.2, ?_⟩
      intro q hq hqs
      have hql : q ∈ supernets S p := (hmem q).mpr ⟨hq, hqs⟩
      rw [hl] at hql
      rcases List.mem_cons.mp hql with rfl | hqt
      · exact containsP_self (hsv q hq)
      · have hk := hhead q hqt
        exact strictSup_nested hrmem.2 hqs (supernet_plen_le_of_keyLE hrmem.2 hqs hk)

/-- Witness for C10 at the test scenario. -/
theorem C10_root_witness :
    (∀ q ∈ demoScope, q.Valid) ∧
    (∀ r, rootOf demoScope (v4p 101 102 0 0 26) = some r →
      r ∈ demoScope ∧ strictSup r (v4p 101 102 0 0 26) ∧
        ∀ q ∈ demoScope, strictSup q (v4p 101 102 0 0 26) → containsP r q) :=
  ⟨by decide,
    ((C10_root.1 demoScope (v4p 101 102 0 0 26) (by decide)).2)⟩

/-! ## Host allocation and utilization -/

/-- The prefix type tag: container / network / pool (closed variant of the
model's `type` choice field). -/
inductive PType where
  | container
  | network
  | pool
deriving DecidableEq

/-- A stored Prefix record: the CIDR value plus its type tag. -/
structure PrefixRec where
  pfx : Pfx
  typ : PType
deriving DecidableEq

/-- Number of host bits of a prefix. -/
def hostBits (p : Pfx) : ℕ := p.bits - p.plen

/-- Modelled from the spec: `Prefix.get_available_ips` (model code not under
`src/`; only its test is).  The addresses of the parent's range minus the
occupied addresses, with the network and broadcast addresses additionally
excluded for non-pool prefixes having at least two host bits; /31 and /127
prefixes are fully usable (RFC 3021) and pool prefixes always keep
network/broadcast.  Listed in ascending address order. -/
def get_available_ips (r : PrefixRec) (occupied : List ℕ) : List ℕ :=
  ((List.range r.pfx.size).map (r.pfx.network + ·)).filter fun a =>
    decide (a ∉ occupied) &&
      (decide (r.typ = PType.pool) || decide (hostBits r.pfx ≤ 1) ||
        (decide (a ≠ r.pfx.network) && decide (a ≠ r.pfx.broadcast)))

instance {e a : Type} [DecidableEq e] [DecidableEq a] : DecidableEq (Except e a) :=
  fun x y =>
    match x, y with
    | .error u, .error v =>
      if h : u = v then .isTrue (by rw [h]) else .isFalse (fun hh => h (Except.error.inj hh))
    | .error _, .ok _ => .isFalse (fun hh => Except.noConfusion hh)
    | .ok _, .error _ => .isFalse (fun hh => Except.noConfusion hh)
    | .ok u, .ok v =>
      if h : u = v then .isTrue (by rw [h]) else .isFalse (fun hh => h (Except.ok.inj hh))

/-- Modelled from the spec: `Prefix.get_first_available_ip` (model code not
under `src/`).  The numerically smallest available address, paired with the
parent's mask length ("10.0.0.4/24"); `ExhaustionError` when the available
set is empty. -/
def get_first_available_ip (r : PrefixRec) (occupied : List ℕ) :
    Except String (ℕ × ℕ) :=
  match get_available_ips r occupied with
  | [] => .error "ExhaustionError"
  | a :: _ => .ok (a, r.pfx.plen)

theorem mem_get_available_ips {r : PrefixRec} {occ : List ℕ} {a : ℕ} :
    a ∈ get_available_ips r occ ↔
      (r.pfx.Mem a ∧ a ∉ occ ∧
        (r.typ = PType.pool ∨ hostBits r.pfx ≤ 1 ∨
          (a ≠ r.pfx.network ∧ a ≠ r.pfx.broadcast))) := by
  unfold get_available_ips
  rw [List.mem_filter]
  have hmm : a ∈ (List.range r.pfx.size).map (r.pfx.network + ·) ↔ r.pfx.Mem a := by
    rw [Pfx.Mem]
    simp only [List.mem_map, List.mem_range]
    constructor
    · rintro ⟨i, hi, rfl⟩
      omega
    · intro h
      exact ⟨a - r.pfx.network, by omega, by omega⟩
  rw [hmm]
  simp only [Bool.and_eq_true, Bool.or_eq_true, decide_eq_true_eq]
  tauto

theorem get_available_ips_sorted (r : PrefixRec) (occ : List ℕ) :
    (get_available_ips r occ).Pairwise (· < ·) := by
  apply List.Pairwise.filter
  apply List.pairwise_map.mpr
  exact (List.pairwise_lt_range _).imp (by omega)

/-! ## Claim C5 -/

/-- C5: `get_available_ips` returns exactly the addresses of the parent's
range minus the occupied addresses, with network and broadcast additionally
excluded for non-pool types having two or more host bits, while /31 (and
/127) prefixes treat all addresses as usable and pool prefixes always
include network/broadcast; for parent 10.0.0.0/28 with the odd addresses
.1–.13 occupied the available set is exactly {.2, .4, .6, .8, .10, .12, .14}. -/
theorem C5_get_available_ips :
    (∀ (r : PrefixRec) (occ : List ℕ) (a : ℕ),
      a ∈ get_available_ips r occ ↔
        (r.pfx.Mem a ∧ a ∉ occ ∧
          (r.typ = PType.pool ∨ hostBits r.pfx ≤ 1 ∨
            (a ≠ r.pfx.network ∧ a ≠ r.pfx.broadcast)))) ∧
    get_available_ips ⟨v4p 10 0 0 0 28, PType.network⟩
        [v4 10 0 0 1, v4 10 0 0 3, v4 10 0 0 5, v4 10 0 0 7, v4 10 0 0 9,
         v4 10 0 0 11, v4 10 0 0 13] =
      [v4 10 0 0 2, v4 10 0 0 4, v4 10 0 0 6, v4 10 0 0 8, v4 10 0 0 10,
       v4 10 0 0 12, v4 10 0 0 14] :=
  ⟨fun _ _ _ => mem_get_available_ips, by decide⟩

/-! ## Claim C6 -/

/-- C6: `get_first_available_ip` returns the numerically smallest address of
the available set, never an occupied address, formatted with the parent's
mask length, and fails with `ExhaustionError` exactly when the available set
is empty; in the test scenario (10.0.0.0/24 with .1–.3 occupied) it returns
10.0.0.4/24, and 10.0.0.5/24 once .4 is also occupied. -/
theorem C6_get_first_available_ip :
    (∀ (r : PrefixRec) (occ : List ℕ),
      (get_first_available_ip r occ = .error "ExhaustionError" ↔
        get_available_ips r occ = []) ∧
      (∀ a m, get_first_available_ip r occ = .ok (a, m) →
        m = r.pfx.plen ∧ a ∈ get_available_ips r occ ∧ a ∉ occ ∧
          ∀ b ∈ get_available_ips r occ, a ≤ b)) ∧
    get_first_available_ip ⟨v4p 10 0 0 0 24, PType.network⟩
        [v4 10 0 0 1, v4 10 0 0 2, v4 10 0 0 3] = .ok (v4 10 0 0 4, 24) ∧
    get_first_available_ip ⟨v4p 10 0 0 0 24, PType.network⟩
        [v4 10 0 0 1, v4 10 0 0 2, v4 10 0 0 3, v4 10 0 0 4] = .ok (v4 10 0 0 5, 24) := by
  refine ⟨?_, by decide, by decide⟩
  intro r occ
  have hsorted := get_available_ips_sorted r occ
  unfold get_first_available_ip
  rcases hl : get_available_ips r occ with - | ⟨a0, t⟩
  · simp
  · rw [hl] at hsorted
    obtain ⟨hhead, -⟩ := List.pairwise_cons.mp hsorted
    constructor
    · simp
    · intro a m h
      simp only [Except.ok.injEq, Prod.mk.injEq] at h
      obtain ⟨rfl, rfl⟩ := h
      have hmem0 : a0 ∈ get_available_ips r occ := by
        rw [hl]; exact List.mem_cons_self a0 t
      refine ⟨rfl, List.mem_cons_self a0 t, (mem_get_available_ips.mp hmem0).2.1, ?_⟩
      intro b hb
      rcases List.mem_cons.mp hb with rfl | hbt
      · exact le_refl _
      · exact le_of_lt (hhead b hbt)

/-! ## Claim C4 -/

/-- Modelled from the spec: `Prefix.get_utilization` (model code not under
`src/`; only its test is).  For container prefixes, used is the summed size
of the child prefixes and total is the prefix size; for other types, total
is the prefix size minus the two reserved addresses when the type is not
pool and there are at least two host bits, and used is total minus the
number of available addresses — matching the spec's §4.4 total rule and its
§8 example values (32, 254) and (34, 256). -/
def get_utilization (r : PrefixRec) (childPrefixes : List Pfx)
    (occupied : List ℕ) : ℕ × ℕ :=
  if r.typ = PType.container then
    ((childPrefixes.map Pfx.size).sum, r.pfx.size)
  else
    let total := if r.typ ≠ PType.pool ∧ 2 ≤ hostBits r.pfx
      then r.pfx.size - 2 else r.pfx.size
    (total - (get_available_ips r occupied).length, total)

/-- The 32 interior addresses 10.0.0.1 – 10.0.0.32 of the utilization test. -/
def interiorIps : List ℕ := (List.range 32).map (fun i => v4 10 0 0 (i + 1))

/-- C4 (counterexample): with the /24 network-type prefix, 32 interior
address records plus records equal to the network and broadcast addresses,
`get_utilization` is (32, 254) — and it is identical with the
network/broadcast records absent, so a recorded network/broadcast address is
NOT counted in `used` for a non-pool prefix, contrary to the claim (which
would give used = 34). -/
theorem C4_counterexample :
    get_utilization ⟨v4p 10 0 0 0 24, PType.network⟩ []
        (interiorIps ++ [v4 10 0 0 0, v4 10 0 0 255]) = (32, 254) ∧
    get_utilization ⟨v4p 10 0 0 0 24, PType.network⟩ [] interiorIps = (32, 254) :=
  ⟨by decide, by decide⟩

/-- C4 (amended): for the /24 non-container non-pool prefix with 32 interior
address records plus records equal to the network and broadcast addresses,
`get_utilization` returns (32, 254) — network and broadcast are excluded
from the total and recorded network/broadcast addresses are not counted in
`used`; after switching the prefix type to pool it returns (34, 256) with
both counted. -/
theorem C4_get_utilization :
    get_utilization ⟨v4p 10 0 0 0 24, PType.network⟩ []
        (interiorIps ++ [v4 10 0 0 0, v4 10 0 0 255]) = (32, 254) ∧
    get_utilization ⟨v4p 10 0 0 0 24, PType.pool⟩ []
        (interiorIps ++ [v4 10 0 0 0, v4 10 0 0 255]) = (34, 256) :=
  ⟨by decide, by decide⟩

/-! ## Uniqueness / scope validator -/

/-- A Prefix record together with its scope (namespace) reference. -/
structure ScopedPfx where
  ns : ℕ
  pfx : Pfx
deriving DecidableEq

/-- Exact duplicate test of the validator: same scope, same network, same
prefix length. -/
def samePrefixKey (q c : ScopedPfx) : Prop :=
  q.ns = c.ns ∧ q.pfx.network = c.pfx.network ∧ q.pfx.plen = c.pfx.plen

instance (q c : ScopedPfx) : Decidable (samePrefixKey q c) := by
  unfold samePrefixKey; infer_instance

/-- Modelled from the spec: prefix insert validation (model code not under
`src/`; only its test is).  A candidate exactly matching an existing
(network, prefix_length) in the same scope is rejected with
UniquenessViolation; the error result carries no new state, and parent
pointers are derived, so no tree mutation has occurred on failure. -/
def insert_prefix_record (S : List ScopedPfx) (c : ScopedPfx) :
    Except String (List ScopedPfx) :=
  if S.any fun q => decide (samePrefixKey q c)
  then .error "UniquenessViolation"
  else .ok (c :: S)

/-- An IPAddress record: scope, address value, mask length, optional role,
optional assigned endpoint (interface). -/
structure IPRec where
  ns : ℕ
  address : ℕ
  plen : ℕ
  role : Option ℕ
  endpoint : Option ℕ
deriving DecidableEq

/-- Modelled from the spec: one existing record is compatible with the
candidate when it does not share (address, prefix_length) in the scope, or
is distinguished by role, or both are distinguished by assigned endpoints. -/
def ipCompatible (q c : IPRec) : Prop :=
  (q.ns = c.ns ∧ q.address = c.address ∧ q.plen = c.plen) →
    (q.role ≠ c.role ∨
      (q.endpoint ≠ c.endpoint ∧ q.endpoint ≠ none ∧ c.endpoint ≠ none))

instance (q c : IPRec) : Decidable (ipCompatible q c) := by
  unfold ipCompatible; infer_instance

/-- Modelled from the spec: IP address insert validation — duplicates are
permitted only when every record sharing (address, prefix_length) is
distinguished by role or by assigned endpoint. -/
def insert_ip (S : List IPRec) (c : IPRec) : Except String (List IPRec) :=
  if S.all fun q => decide (ipCompatible q c)
  then .ok (c :: S)
  else .error "ValidationError"

/-! ## Claim C7 -/

/-- C7: inserting a Prefix whose (network, prefix_length) exactly matches an
existing Prefix of the same scope fails with UniquenessViolation before any
state change (the error result carries no mutated state; otherwise the
unchanged state plus the candidate is returned); an IPAddress insert
succeeds iff every existing record sharing (address, prefix_length) in the
scope is distinguished from the candidate by role or by assigned endpoint;
the tested scenarios — duplicate prefix, duplicate role-less address,
duplicate address with distinct roles — behave accordingly. -/
theorem C7_uniqueness_validation :
    (∀ (S : List ScopedPfx) (c : ScopedPfx),
      (insert_prefix_record S c = .error "UniquenessViolation" ↔ ∃ q ∈ S, samePrefixKey q c) ∧
      ((¬ ∃ q ∈ S, samePrefixKey q c) → insert_prefix_record S c = .ok (c :: S))) ∧
    (∀ (S : List IPRec) (c : IPRec),
      (insert_ip S c = .ok (c :: S) ↔ ∀ q ∈ S, ipCompatible q c) ∧
      (insert_ip S c = .ok (c :: S) ∨ insert_ip S c = .error "ValidationError")) ∧
    (insert_prefix_record [⟨0, v4p 192 0 2 0 24⟩] ⟨0, v4p 192 0 2 0 24⟩ =
      .error "UniquenessViolation" ∧
     insert_ip [⟨0, v4 192 0 2 1, 24, none, none⟩] ⟨0, v4 192 0 2 1, 24, none, none⟩ =
      .error "ValidationError" ∧
     insert_ip [⟨0, v4 192 0 2 1, 24, some 0, none⟩] ⟨0, v4 192 0 2 1, 24, some 1, none⟩ =
      .ok [⟨0, v4 192 0 2 1, 24, some 1, none⟩, ⟨0, v4 192 0 2 1, 24, some 0, none⟩]) := by
  refine ⟨?_, ?_, by decide, by decide, by decide⟩
  · intro S c
    unfold insert_prefix_record
    by_cases hany : ∃ q ∈ S, samePrefixKey q c
    · rw [if_pos (by simpa using hany)]
      exact ⟨⟨fun _ => hany, fun _ => rfl⟩, fun hno => absurd hany hno⟩
    · rw [if_neg (by simpa using hany)]
      exact ⟨⟨fun h => absurd h (by simp), fun h => absurd h hany⟩, fun _ => rfl⟩
  · intro S c
    unfold insert_ip
    by_cases hall : ∀ q ∈ S, ipCompatible q c
    · rw [if_pos (by simpa using hall)]
      exact ⟨⟨fun _ => hall, fun _ => rfl⟩, Or.inl rfl⟩
    · rw [if_neg (by simpa using hall)]
      exact ⟨⟨fun h => absurd h (by simp), fun h => absurd h hall⟩, Or.inr rfl⟩

/-! ## VLAN groups -/

/-- Modelled from the spec: `VLANGroup.get_next_available_vid` (model code
not under `src/`; only its test is).  The smallest VLAN id in 1–4094 not
used by any VLAN of the group. -/
def get_next_available_vid (vids : List ℕ) : Option ℕ :=
  (List.range' 1 4094).find? fun v => decide (v ∉ vids)

theorem find?_range'_spec {P : ℕ → Bool} : ∀ {n s v : ℕ},
    (List.range' s n).find? P = some v →
      P v = true ∧ s ≤ v ∧ v < s + n ∧ ∀ w, s ≤ w → w < v → P w = false := by
  intro n
  induction n with
  | zero => intro s v h; simp [List.range'] at h
  | succ m ih =>
    intro s v h
    rw [List.range'_succ, List.find?_cons] at h
    split at h
    · rcases Option.some.inj h with rfl
      next hp => exact ⟨hp, le_refl _, by omega, fun w h1 h2 => by omega⟩
    · next hp =>
        obtain ⟨h1, h2, h3, h4⟩ := ih h
        refine ⟨h1, by omega, by omega, ?_⟩
        intro w hw1 hw2
        rcases Nat.eq_or_lt_of_le hw1 with rfl | hw3
        · simpa using hp
        · exact h4 w (by omega) hw2

/-! ## Claim C9 -/

/-- C9: the next-available-VID query returns the smallest VLAN id in 1–4094
not already used by a VLAN of the group (none when all are used); with VIDs
{1, 2, 3, 5} present it returns 4, and after adding VID 4 it returns 6. -/
theorem C9_get_next_available_vid :
    (∀ (vids : List ℕ),
      (∀ v, get_next_available_vid vids = some v →
        1 ≤ v ∧ v ≤ 4094 ∧ v ∉ vids ∧ ∀ w, 1 ≤ w → w < v → w ∈ vids) ∧
      (get_next_available_vid vids = none ↔ ∀ v, 1 ≤ v → v ≤ 4094 → v ∈ vids)) ∧
    get_next_available_vid [1, 2, 3, 5] = some 4 ∧
    get_next_available_vid [1, 2, 3, 5, 4] = some 6 := by
  refine ⟨?_, by decide, by decide⟩
  intro vids
  constructor
  · intro v h
    obtain ⟨h1, h2, h3, h4⟩ := find?_range'_spec h
    refine ⟨h2, by omega, by simpa using h1, ?_⟩
    intro w hw1 hw2
    have := h4 w hw1 hw2
    simpa using this
  · rw [get_next_available_vid, List.find?_eq_none]
    constructor
    · intro h v h1 h2
      have := h v (List.mem_range'_1.mpr ⟨h1, by omega⟩)
      simpa using this
    · intro h v hv
      have := List.mem_range'_1.mp hv
      simpa using h v this.1 (by omega)

/-! ## Witnesses at concrete test inputs -/

/-- Witness for C5: the membership characterization instantiated at the test
scenario. -/
theorem C5_get_available_ips_witness :
    v4 10 0 0 2 ∈ get_available_ips ⟨v4p 10 0 0 0 28, PType.network⟩
        [v4 10 0 0 1, v4 10 0 0 3, v4 10 0 0 5, v4 10 0 0 7, v4 10 0 0 9,
         v4 10 0 0 11, v4 10 0 0 13] ↔
      ((v4p 10 0 0 0 28).Mem (v4 10 0 0 2) ∧
        v4 10 0 0 2 ∉ [v4 10 0 0 1, v4 10 0 0 3, v4 10 0 0 5, v4 10 0 0 7, v4 10 0 0 9,
          v4 10 0 0 11, v4 10 0 0 13] ∧
        (PType.network = PType.pool ∨ hostBits (v4p 10 0 0 0 28) ≤ 1 ∨
          (v4 10 0 0 2 ≠ (v4p 10 0 0 0 28).network ∧
            v4 10 0 0 2 ≠ (v4p 10 0 0 0 28).broadcast))) :=
  C5_get_available_ips.1 ⟨v4p 10 0 0 0 28, PType.network⟩
    [v4 10 0 0 1, v4 10 0 0 3, v4 10 0 0 5, v4 10 0 0 7, v4 10 0 0 9,
     v4 10 0 0 11, v4 10 0 0 13] (v4 10 0 0 2)

/-- Witness for C6: the first-available-address properties hold at the test
scenario. -/
theorem C6_get_first_available_ip_witness :
    get_first_available_ip ⟨v4p 10 0 0 0 24, PType.network⟩
        [v4 10 0 0 1, v4 10 0 0 2, v4 10 0 0 3] = .ok (v4 10 0 0 4, 24) ∧
    (24 = (v4p 10 0 0 0 24).plen ∧
      v4 10 0 0 4 ∈ get_available_ips ⟨v4p 10 0 0 0 24, PType.network⟩
        [v4 10 0 0 1, v4 10 0 0 2, v4 10 0 0 3] ∧
      v4 10 0 0 4 ∉ [v4 10 0 0 1, v4 10 0 0 2, v4 10 0 0 3] ∧
      ∀ b ∈ get_available_ips ⟨v4p 10 0 0 0 24, PType.network⟩
        [v4 10 0 0 1, v4 10 0 0 2, v4 10 0 0 3], v4 10 0 0 4 ≤ b) :=
  ⟨by decide,
    (C6_get_first_available_ip.1 ⟨v4p 10 0 0 0 24, PType.network⟩
      [v4 10 0 0 1, v4 10 0 0 2, v4 10 0 0 3]).2 (v4 10 0 0 4) 24 (by decide)⟩

/-- Witness for C7: a non-duplicate prefix insert commits the candidate. -/
theorem C7_uniqueness_validation_witness :
    (¬ ∃ q ∈ ([] : List ScopedPfx), samePrefixKey q ⟨0, v4p 192 0 2 0 24⟩) ∧
    insert_prefix_record [] ⟨0, v4p 192 0 2 0 24⟩ = .ok [⟨0, v4p 192 0 2 0 24⟩] :=
  ⟨by decide, (C7_uniqueness_validation.1 [] ⟨0, v4p 192 0 2 0 24⟩).2 (by decide)⟩

/-- Witness for C9: the smallest-free-VID properties hold with VIDs
{1, 2, 3, 5} present. -/
theorem C9_get_next_available_vid_witness :
    get_next_available_vid [1, 2, 3, 5] = some 4 ∧
    (1 ≤ 4 ∧ 4 ≤ 4094 ∧ 4 ∉ [1, 2, 3, 5] ∧
      ∀ w, 1 ≤ w → w < 4 → w ∈ [1, 2, 3, 5]) :=
  ⟨by decide, (C9_get_next_available_vid.1 [1, 2, 3, 5]).1 4 (by decide)⟩

end Ipam
